import Mathlib

set_option linter.unusedSectionVars false

/-!
# Verification of the separate-chaining hash map (`salt-map`)

Shallow embedding of `src/chaining_map.rs` (generic `ChainingHashMap<K, V, S>`)
and `src/naive_chaining_map.rs` (the custom-hash `ChainingHashMap<V>` variant).

Modelling conventions:

* `Vec<Option<Vec<(K, V)>>>` becomes `List (Option (List (K × V)))`; `usize`
  becomes `Nat`.  `self.backing.capacity()` is modelled by `backing.length`:
  every constructor and `resize` pushes exactly the allocated capacity of
  `None`s into the vector, so length and allocated capacity coincide.
* The hash builder `S` (`RandomState`, or the naive salted byte-pair hash) is
  modelled by a function parameter `hashF : K → Nat` standing for
  `hasher.finish() as usize` of the instance's builder; it is fixed per table
  instance, which is exactly the guarantee `RandomState` gives.  Theorems
  quantify over `hashF`, so they hold for every seed / builder.
* The `f32` threshold test `self.len() as f32 / self.capacity() as f32 > 0.7`
  is modelled by the exact rational test `10 * load > 7 * capacity`.  Since
  `0.7f32 = 11744051 / 2^24 < 7/10`, `Nat.cast` to `f32` is exact below
  `2^24`, and `f32` division is correctly rounded, the two tests agree for
  every `capacity ≤ 5000000`, far beyond anything the claims touch.  At
  `capacity = 0` both agree as well (`0.0/0.0` is NaN, and NaN `> 0.7` is
  false, matching `10 * 0 > 0`; a positive load with zero capacity gives
  `inf > 0.7`, matching `10 * load > 0`).
* `(capacity as f32 / 0.7f32) as usize` in `make_backing_with_capacity` is
  modelled by `10 * capacity / 7`; by the same analysis this is exact for
  every `capacity ≤ 700000`.
* Rust panics (the `% 0` in `get_index` when the backing is empty, the
  out-of-bounds `Vec::remove`, and a resize re-triggered from inside `resize`,
  which the source's recursion would re-enter) are modelled by `Option`:
  `none` means the call does not return normally.  The re-trigger marker is
  proved unreachable from every well-formed state, so on those states the
  model agrees with the source's single-level recursion.
* Naive-variant strings are modelled as their UTF-8 byte lists (`List Nat`);
  `usize` addition in its hash is modelled without wrapping, exact for the
  short keys the claims use.
-/

namespace SaltMap

/-- The table state shared by `ChainingHashMap<K, V, S>` of
`src/chaining_map.rs` and `ChainingHashMap<V>` of `src/naive_chaining_map.rs`:
`backing: Vec<Option<Vec<(K, V)>>>` and `load: usize`.  The `load_factor`
field is the constant `0.7` in both files and is folded into the threshold
test; the hash builder / salt is carried as the ambient `hashF` parameter. -/
structure HMap (K V : Type) where
  backing : List (Option (List (K × V)))
  load : Nat

variable {K V : Type} [DecidableEq K]

/-- `make_backing_with_capacity` (chaining_map.rs:13-23): an all-`None`
backing of `(capacity as f32 / 0.7) as usize = 10 * capacity / 7` slots. -/
def makeBackingWithCapacity (K V : Type) (capacity : Nat) :
    List (Option (List (K × V))) :=
  List.replicate (10 * capacity / 7) none

/-- `ChainingHashMap::with_capacity` (chaining_map.rs:26-34): backing from
`make_backing_with_capacity`, load 0 (hash builder: fresh `RandomState`,
i.e. an arbitrary `hashF`). -/
def withCapacity (K V : Type) (capacity : Nat) : HMap K V :=
  ⟨makeBackingWithCapacity K V capacity, 0⟩

/-- `ChainingHashMap::with_capacity_and_hasher` (chaining_map.rs:43-51):
identical state to `with_capacity`; the caller-supplied builder is the
ambient `hashF`. -/
def withCapacityAndHasher (K V : Type) (capacity : Nat) : HMap K V :=
  ⟨makeBackingWithCapacity K V capacity, 0⟩

/-- `ChainingHashMap::new` (chaining_map.rs:36-39): `with_capacity(20)`. -/
def mkNew (K V : Type) : HMap K V :=
  withCapacity K V 20

/-- `capacity` (chaining_map.rs:57-61): `self.backing.capacity()`, which
equals the number of slots. -/
def capacity (m : HMap K V) : Nat :=
  m.backing.length

/-- `len` (chaining_map.rs:63-65). -/
def len (m : HMap K V) : Nat :=
  m.load

/-- `is_empty` (chaining_map.rs:67-69). -/
def isEmpty (m : HMap K V) : Bool :=
  m.load == 0

/-- `clear` (chaining_map.rs:71-74): load 0, every slot set to `None`. -/
def clear (m : HMap K V) : HMap K V :=
  ⟨m.backing.map (fun _ => none), 0⟩

variable (hashF : K → Nat)

/-- `get_index` (chaining_map.rs:86-94, naive_chaining_map.rs:51-55):
`hasher.finish() as usize % self.backing.capacity()`.  With an empty backing
the Rust `%` panics (division by zero): modelled by `none`. -/
def getIndex (m : HMap K V) (k : K) : Option Nat :=
  if m.backing.length = 0 then none
  else some (hashF k % m.backing.length)

/-- The `Some(vec)` branch of `insert` (chaining_map.rs:113-128,
naive_chaining_map.rs:84-100): scan the chain; on the first entry whose key
equals `k`, replace its value in place (key component untouched) and return
the old value; if no entry matches, push `(k, v)` at the end. -/
def chainReplaceOrPush : List (K × V) → K → V → Option V × List (K × V)
  | [], k, v => (none, [(k, v)])
  | (k0, v0) :: rest, k, v =>
    if k = k0 then (some v0, (k0, v) :: rest)
    else
      let r := chainReplaceOrPush rest k v
      (r.1, (k0, v0) :: r.2)

/-- The body of `insert` after the resize check and index computation
(chaining_map.rs:107-129): `None` slot ⇒ fresh one-entry chain, `load += 1`,
return `None`; `Some(vec)` ⇒ `chainReplaceOrPush`, incrementing `load` only
when the key was not found. -/
def insertAt (m : HMap K V) (idx : Nat) (k : K) (v : V) :
    Option V × HMap K V :=
  match m.backing.getD idx none with
  | none => (none, ⟨m.backing.set idx (some [(k, v)]), m.load + 1⟩)
  | some chain =>
    match chainReplaceOrPush chain k v with
    | (some v0, chain1) => (some v0, ⟨m.backing.set idx (some chain1), m.load⟩)
    | (none, chain1) => (none, ⟨m.backing.set idx (some chain1), m.load + 1⟩)

/-- The resize trigger `self.len() as f32 / self.capacity() as f32 > 0.7`
(chaining_map.rs:101, naive_chaining_map.rs:68), as the exact rational test
(see the header comment for the range where this is literally the `f32`
comparison). -/
def shouldResize (m : HMap K V) : Bool :=
  decide (10 * m.load > 7 * m.backing.length)

/-- Flatten a backing into the list of its entries, slot 0 first, each chain
front-to-back: the iteration order of `resize` (chaining_map.rs:170-177). -/
def entriesFrom (bs : List (Option (List (K × V)))) : List (K × V) :=
  bs.foldr (fun s acc => s.getD [] ++ acc) []

/-- All entries currently stored in the table. -/
def allEntries (m : HMap K V) : List (K × V) :=
  entriesFrom m.backing

/-- The reinsertion loop of `resize` (chaining_map.rs:170-177): each evicted
entry goes through the ordinary `insert`.  One level of the recursion is
modelled: if the reinserting `insert`'s own threshold check fired (which
would recursively re-enter `resize`), the result is `none`; this marker is
proved unreachable from well-formed states.  `none` also models the
`get_index` panic on an empty backing. -/
def reinsertAll : List (K × V) → HMap K V → Option (HMap K V)
  | [], m => some m
  | (k, v) :: rest, m =>
    if shouldResize m then none
    else
      match getIndex hashF m k with
      | none => none
      | some idx => reinsertAll rest (insertAt m idx k v).2

/-- `resize` (chaining_map.rs:152-178, naive_chaining_map.rs:123-149):
allocate an all-`None` backing of `capacity * 2`, reset load to 0, reinsert
every old entry through the insertion path. -/
def resize (m : HMap K V) : Option (HMap K V) :=
  reinsertAll hashF (allEntries m) ⟨List.replicate (m.backing.length * 2) none, 0⟩

/-- `insert` (chaining_map.rs:97-130, naive_chaining_map.rs:66-102): resize
first when the load factor is exceeded, then compute the index (under the
possibly doubled capacity) and run the insertion body.  `none` models a
panic (empty backing) or the unreachable nested resize. -/
def insert (m : HMap K V) (k : K) (v : V) : Option (Option V × HMap K V) :=
  match (if shouldResize m then resize hashF m else some m) with
  | none => none
  | some m1 =>
    match getIndex hashF m1 k with
    | none => none
    | some idx => some (insertAt m1 idx k v)

/-- Linear scan of a chain for the first entry whose key equals `k`,
returning its value: the loop of `get` (chaining_map.rs:133-140,
naive_chaining_map.rs:104-121). -/
def chainFind (c : List (K × V)) (k : K) : Option V :=
  (c.find? (fun p => decide (k = p.1))).map (fun p => p.2)

/-- `get` (chaining_map.rs:133-140, naive_chaining_map.rs:104-121): compute
the index (panic on empty backing ⇒ outer `none`), then scan the slot's
chain; an absent slot or no match is the inner `none`. -/
def get (m : HMap K V) (k : K) : Option (Option V) :=
  match getIndex hashF m k with
  | none => none
  | some idx => some (chainFind ((m.backing.getD idx none).getD []) k)

/-- `get_mut` (chaining_map.rs:142-150): same traversal as `get`; the
returned `&mut V` is modelled by the value it points at. -/
def getMut (m : HMap K V) (k : K) : Option (Option V) :=
  match getIndex hashF m k with
  | none => none
  | some idx => some (chainFind ((m.backing.getD idx none).getD []) k)

/-- The `indices_vec` of `remove_entry` (chaining_map.rs:183-191): positions
of all chain entries whose key equals `k`, in order. -/
def removeIndices (chain : List (K × V)) (k : K) : List Nat :=
  ((chain.enum.filter (fun p => decide (k = p.2.1))).map (fun p => p.1))

/-- `remove_entry` (chaining_map.rs:180-203): index (panic on empty backing
⇒ outer `none`), absent slot or no matching entry ⇒ `some none` with the
table untouched; otherwise `Vec::remove` the first matching position,
decrement `load`, and return the removed pair.  The inner out-of-bounds
`Vec::remove` panic is `none` (unreachable: the position comes from the
scan). -/
def removeEntry (m : HMap K V) (k : K) :
    Option (Option ((K × V) × HMap K V)) :=
  match getIndex hashF m k with
  | none => none
  | some idx =>
    match m.backing.getD idx none with
    | none => some none
    | some chain =>
      match (removeIndices chain k).head? with
      | none => some none
      | some internalIdx =>
        match chain.get? internalIdx with
        | none => none
        | some entry =>
          some (some (entry,
            ⟨m.backing.set idx (some (chain.eraseIdx internalIdx)), m.load - 1⟩))

/-- `remove` (chaining_map.rs:207-209): `remove_entry` projected to the
value. -/
def remove (m : HMap K V) (k : K) : Option (Option (V × HMap K V)) :=
  (removeEntry hashF m k).map (fun r => r.map (fun e => (e.1.2, e.2)))

/-- Folding a list of insertions through `insert`, left to right; `none` as
soon as one insertion panics. -/
def foldInsert (m : HMap K V) : List (K × V) → Option (HMap K V)
  | [] => some m
  | (k, v) :: rest =>
    match insert hashF m k v with
    | none => none
    | some r => foldInsert r.2 rest

end SaltMap

namespace SaltMap

/-! ## The naive custom-hash variant (`src/naive_chaining_map.rs`) -/

/-- The byte-pair accumulation of `hash` (naive_chaining_map.rs:12-16):
`bytes.chunks(2)` with each chunk's byte shifted left by `2^idx`
(`idx ∈ {0, 1}`, so shifts of 1 and 2). -/
def hashChunks : List Nat → Nat
  | [] => 0
  | [b0] => (b0 <<< 1)
  | b0 :: b1 :: rest => (b0 <<< 1) + (b1 <<< 2) + hashChunks rest

/-- `hash` (naive_chaining_map.rs:1-19): optional salt plus the byte-pair
accumulation, on the key's byte sequence.  `usize` wrapping is not modelled
(exact while the sum stays below `2^64`). -/
def naiveHash (salt : Option Nat) (key : List Nat) : Nat :=
  (match salt with | some s => s | none => 0) + hashChunks key

/-- `ChainingHashMap::<V>::with_capacity` (naive_chaining_map.rs:31-42):
exactly `capacity` `None` slots — no load-factor adjustment — load 0,
salt `None`. -/
def naiveWithCapacity (V : Type) (capacity : Nat) : HMap (List Nat) V :=
  ⟨List.replicate capacity none, 0⟩

/-- `ChainingHashMap::<V>::new` (naive_chaining_map.rs:44-47):
`with_capacity(20)`. -/
def naiveNew (V : Type) : HMap (List Nat) V :=
  naiveWithCapacity V 20

end SaltMap

namespace SaltMap

/-! ## Specification-side definitions: representation invariant and model -/

variable {K V : Type} [DecidableEq K] (hashF : K → Nat)

/-- The keys of a chain, in order. -/
def chainKeys (c : List (K × V)) : List K :=
  c.map (fun p => p.1)

/-- Pure model of a lookup: scan the chain sitting at `k`'s bucket.  Agrees
with `get` whenever the backing is nonempty. -/
def lookupModel (m : HMap K V) (k : K) : Option V :=
  chainFind ((m.backing.getD (hashF k % m.backing.length) none).getD []) k

/-- Well-formed buckets, starting at slot index `off`: every entry of the
chain in slot `off + i` hashes (mod `cap`) to `off + i`, and each chain's
keys are distinct. -/
def BucketsOK (cap : Nat) : Nat → List (Option (List (K × V))) → Prop
  | _, [] => True
  | off, b :: rest =>
    ((∀ key ∈ chainKeys (b.getD []), hashF key % cap = off) ∧
      (chainKeys (b.getD [])).Nodup) ∧
    BucketsOK cap (off + 1) rest

instance instDecidableBucketsOK (cap : Nat) :
    (off : Nat) → (bs : List (Option (List (K × V)))) →
      Decidable (BucketsOK hashF cap off bs)
  | _, [] => .isTrue trivial
  | off, _b :: rest =>
    @instDecidableAnd _ _ inferInstance (instDecidableBucketsOK cap (off + 1) rest)

/-- Representation invariant: the recorded load counts the stored entries,
buckets are well formed, and the load can exceed the threshold by at most
one entry (the source checks the threshold before each insertion, so a
completed insertion overshoots by at most 1). -/
def Inv (m : HMap K V) : Prop :=
  m.load = (allEntries m).length ∧
  BucketsOK hashF m.backing.length 0 m.backing ∧
  10 * m.load ≤ 7 * m.backing.length + 10

instance instDecidableInv (m : HMap K V) : Decidable (Inv hashF m) := by
  unfold Inv
  infer_instance

/-- Last value written for `k` by a sequence of insertions. -/
def lastValue (l : List (K × V)) (k : K) : Option V :=
  (l.reverse.find? (fun p => decide (k = p.1))).map (fun p => p.2)

/-- Position of the first entry of a chain whose key equals `k`. -/
def firstKeyIdx (k : K) : List (K × V) → Option Nat
  | [] => none
  | (k0, _) :: rest =>
    if k = k0 then some 0 else (firstKeyIdx k rest).map (fun i => i + 1)

/-- Table states reachable from the public constructors through the public
mutating operations (a panicking call produces no state, so only `some`
results extend reachability). -/
inductive Reachable {K V : Type} [DecidableEq K] (hashF : K → Nat) :
    HMap K V → Prop
  | withCapacity (n : Nat) : Reachable hashF (withCapacity K V n)
  | withCapacityAndHasher (n : Nat) :
      Reachable hashF (withCapacityAndHasher K V n)
  | mkNew : Reachable hashF (mkNew K V)
  | insert (m : HMap K V) (k : K) (v : V) (r : Option V) (m1 : HMap K V) :
      Reachable hashF m → insert hashF m k v = some (r, m1) →
      Reachable hashF m1
  | removeEntry (m : HMap K V) (k : K) (e : K × V) (m1 : HMap K V) :
      Reachable hashF m → removeEntry hashF m k = some (some (e, m1)) →
      Reachable hashF m1
  | remove (m : HMap K V) (k : K) (v : V) (m1 : HMap K V) :
      Reachable hashF m → remove hashF m k = some (some (v, m1)) →
      Reachable hashF m1
  | clear (m : HMap K V) : Reachable hashF m → Reachable hashF (clear m)

/-- The byte string of the decimal digit `i`: what `i.to_string().as_bytes()`
yields for `i < 10`. -/
def digitKey (i : Nat) : List Nat := [48 + i]

/-- Scenario B's insertion sequence: keys "0".."9" with values 0..9. -/
def scenarioPairs : List (List Nat × Nat) :=
  (List.range 10).map (fun i => (digitKey i, i))

/-! ## Basic list helpers -/

theorem getD_set_self {α : Type} (d a : α) (bs : List α) (i : Nat)
    (h : i < bs.length) : (bs.set i a).getD i d = a := by
  induction bs generalizing i with
  | nil => simp at h
  | cons b bs ih =>
    cases i with
    | zero => rfl
    | succ i => simpa using ih i (by simpa using h)

theorem getD_set_ne {α : Type} (d a : α) (bs : List α) (i j : Nat)
    (h : i ≠ j) : (bs.set i a).getD j d = bs.getD j d := by
  induction bs generalizing i j with
  | nil => simp
  | cons b bs ih =>
    cases i with
    | zero =>
      cases j with
      | zero => exact absurd rfl h
      | succ j => simp
    | succ i =>
      cases j with
      | zero => simp
      | succ j => simpa using ih i j (fun hij => h (by omega))

/-! ## Chain-level lemmas -/

theorem chainFind_nil (k : K) : chainFind ([] : List (K × V)) k = none := rfl

theorem chainFind_cons (k k0 : K) (v0 : V) (c : List (K × V)) :
    chainFind ((k0, v0) :: c) k = if k = k0 then some v0 else chainFind c k := by
  by_cases h : k = k0 <;> simp [chainFind, List.find?_cons, h]

theorem chainFind_append (k : K) (c d : List (K × V)) :
    chainFind (c ++ d) k = (chainFind c k).or (chainFind d k) := by
  induction c with
  | nil => simp [chainFind_nil]
  | cons p rest ih =>
    rcases p with ⟨k0, v0⟩
    rw [List.cons_append, chainFind_cons, chainFind_cons]
    by_cases h : k = k0 <;> simp [h, ih]

theorem chainFind_eq_none_iff (k : K) (c : List (K × V)) :
    chainFind c k = none ↔ k ∉ chainKeys c := by
  induction c with
  | nil => simp [chainFind_nil, chainKeys]
  | cons p rest ih =>
    rcases p with ⟨k0, v0⟩
    rw [chainFind_cons]
    by_cases h : k = k0
    · simp [h, chainKeys]
    · simp only [h, if_false, ih, chainKeys, List.map_cons, List.mem_cons]
      tauto

theorem chainFind_isSome_iff (k : K) (c : List (K × V)) :
    (chainFind c k).isSome = true ↔ k ∈ chainKeys c := by
  rcases h : chainFind c k with _ | v
  · simpa using (chainFind_eq_none_iff k c).1 h
  · simp only [Option.isSome_some, true_iff]
    by_contra hk
    rw [(chainFind_eq_none_iff k c).2 hk] at h
    exact Option.noConfusion h

theorem chainFind_mem (k : K) (v : V) (c : List (K × V))
    (h : chainFind c k = some v) : (k, v) ∈ c := by
  induction c with
  | nil => simp [chainFind_nil] at h
  | cons p rest ih =>
    rcases p with ⟨k0, v0⟩
    rw [chainFind_cons] at h
    by_cases hk : k = k0
    · simp [hk] at h
      subst hk; subst h
      exact List.mem_cons_self _ _
    · simp [hk] at h
      exact List.mem_cons_of_mem _ (ih h)

theorem crp_fst (c : List (K × V)) (k : K) (v : V) :
    (chainReplaceOrPush c k v).1 = chainFind c k := by
  induction c with
  | nil => rfl
  | cons p rest ih =>
    rcases p with ⟨k0, v0⟩
    rw [chainFind_cons]
    by_cases h : k = k0 <;> simp [chainReplaceOrPush, h, ih]

theorem crp_lookup_self (c : List (K × V)) (k : K) (v : V) :
    chainFind (chainReplaceOrPush c k v).2 k = some v := by
  induction c with
  | nil => simp [chainReplaceOrPush, chainFind_cons]
  | cons p rest ih =>
    rcases p with ⟨k0, v0⟩
    by_cases h : k = k0 <;> simp [chainReplaceOrPush, h, chainFind_cons, ih]

theorem crp_lookup_other (c : List (K × V)) (k k1 : K) (v : V)
    (hne : k1 ≠ k) :
    chainFind (chainReplaceOrPush c k v).2 k1 = chainFind c k1 := by
  induction c with
  | nil => simp [chainReplaceOrPush, chainFind_cons, chainFind_nil, hne]
  | cons p rest ih =>
    rcases p with ⟨k0, v0⟩
    by_cases h : k = k0
    · subst h
      simp [chainReplaceOrPush, chainFind_cons, hne]
    · by_cases h1 : k1 = k0 <;>
        simp [chainReplaceOrPush, h, chainFind_cons, h1, ih]

theorem crp_keys_found (c : List (K × V)) (k : K) (v : V)
    (h : (chainFind c k).isSome = true) :
    chainKeys (chainReplaceOrPush c k v).2 = chainKeys c := by
  induction c with
  | nil => simp [chainFind_nil] at h
  | cons p rest ih =>
    rcases p with ⟨k0, v0⟩
    by_cases hk : k = k0
    · simp [chainReplaceOrPush, hk, chainKeys]
    · rw [chainFind_cons] at h
      simp [hk] at h
      simp [chainReplaceOrPush, hk, chainKeys] at ih ⊢
      exact ih h

theorem crp_keys_notfound (c : List (K × V)) (k : K) (v : V)
    (h : chainFind c k = none) :
    chainKeys (chainReplaceOrPush c k v).2 = chainKeys c ++ [k] := by
  induction c with
  | nil => simp [chainReplaceOrPush, chainKeys]
  | cons p rest ih =>
    rcases p with ⟨k0, v0⟩
    rw [chainFind_cons] at h
    by_cases hk : k = k0
    · simp [hk] at h
    · simp [hk] at h
      simp [chainReplaceOrPush, hk, chainKeys] at ih ⊢
      exact ih h

end SaltMap

namespace SaltMap

/-! ## Backing-level lemmas -/

variable {K V : Type} [DecidableEq K] (hashF : K → Nat)

theorem entriesFrom_nil : entriesFrom ([] : List (Option (List (K × V)))) = [] := rfl

theorem entriesFrom_cons (b : Option (List (K × V))) (bs : List (Option (List (K × V)))) :
    entriesFrom (b :: bs) = b.getD [] ++ entriesFrom bs := rfl

theorem entriesFrom_replicate_none (n : Nat) :
    entriesFrom (List.replicate n (none : Option (List (K × V)))) = [] := by
  induction n with
  | zero => rfl
  | succ n ih => simpa [List.replicate_succ, entriesFrom_cons] using ih

theorem entriesFrom_map_none (bs : List (Option (List (K × V)))) :
    entriesFrom (bs.map (fun _ => (none : Option (List (K × V))))) = [] := by
  induction bs with
  | nil => rfl
  | cons b bs ih => simpa [entriesFrom_cons] using ih

theorem length_entriesFrom_set (bs : List (Option (List (K × V))))
    (i : Nat) (c : List (K × V)) (h : i < bs.length) :
    (entriesFrom (bs.set i (some c))).length + ((bs.getD i none).getD []).length =
      (entriesFrom bs).length + c.length := by
  induction bs generalizing i with
  | nil => simp at h
  | cons b bs ih =>
    cases i with
    | zero => simp [entriesFrom_cons]; omega
    | succ i =>
      have := ih i (by simpa using h)
      simp only [List.set_cons_succ, entriesFrom_cons, List.length_append,
        List.getD_cons_succ]
      omega

theorem chain_length_le_entriesFrom (bs : List (Option (List (K × V))))
    (i : Nat) :
    ((bs.getD i none).getD []).length ≤ (entriesFrom bs).length := by
  induction bs generalizing i with
  | nil => simp
  | cons b bs ih =>
    cases i with
    | zero => simp [entriesFrom_cons]
    | succ i =>
      have := ih i
      simp only [entriesFrom_cons, List.length_append, List.getD_cons_succ]
      omega

/-! ## BucketsOK lemmas -/

theorem bucketsOK_nil (cap off : Nat) :
    BucketsOK hashF cap off ([] : List (Option (List (K × V)))) := trivial

theorem bucketsOK_cons_iff (cap off : Nat) (b : Option (List (K × V)))
    (bs : List (Option (List (K × V)))) :
    BucketsOK hashF cap off (b :: bs) ↔
      ((∀ key ∈ chainKeys (b.getD []), hashF key % cap = off) ∧
        (chainKeys (b.getD [])).Nodup) ∧
      BucketsOK hashF cap (off + 1) bs := Iff.rfl

theorem bucketsOK_replicate (cap n : Nat) : ∀ off : Nat,
    BucketsOK hashF cap off (List.replicate n (none : Option (List (K × V)))) := by
  induction n with
  | zero => intro off; exact trivial
  | succ n ih =>
    intro off
    rw [List.replicate_succ, bucketsOK_cons_iff]
    exact ⟨⟨by simp [chainKeys], by simp [chainKeys]⟩, ih (off + 1)⟩

theorem bucketsOK_map_none (cap : Nat) (bs : List (Option (List (K × V)))) :
    ∀ off : Nat,
      BucketsOK hashF cap off (bs.map (fun _ => (none : Option (List (K × V))))) := by
  induction bs with
  | nil => intro off; exact trivial
  | cons b bs ih =>
    intro off
    rw [List.map_cons, bucketsOK_cons_iff]
    exact ⟨⟨by simp [chainKeys], by simp [chainKeys]⟩, ih (off + 1)⟩

theorem bucketsOK_get (cap : Nat) (bs : List (Option (List (K × V))))
    (i : Nat) : ∀ off : Nat, BucketsOK hashF cap off bs → i < bs.length →
      (∀ key ∈ chainKeys ((bs.getD i none).getD []), hashF key % cap = off + i) ∧
        (chainKeys ((bs.getD i none).getD [])).Nodup := by
  induction bs generalizing i with
  | nil => intro off _ h; simp at h
  | cons b bs ih =>
    intro off hok hi
    rw [bucketsOK_cons_iff] at hok
    cases i with
    | zero => simpa using hok.1
    | succ i =>
      have := ih i (off + 1) hok.2 (by simpa using hi)
      simpa [Nat.add_assoc, Nat.add_comm 1 i] using this

theorem bucketsOK_set (cap : Nat) (bs : List (Option (List (K × V))))
    (i : Nat) (c : List (K × V)) : ∀ off : Nat, BucketsOK hashF cap off bs →
      (∀ key ∈ chainKeys c, hashF key % cap = off + i) →
      (chainKeys c).Nodup →
      BucketsOK hashF cap off (bs.set i (some c)) := by
  induction bs generalizing i with
  | nil => intro off _ _ _; simpa using bucketsOK_nil hashF cap off
  | cons b bs ih =>
    intro off hok hc hnd
    rw [bucketsOK_cons_iff] at hok
    cases i with
    | zero =>
      rw [List.set_cons_zero, bucketsOK_cons_iff]
      exact ⟨⟨by simpa using hc, hnd⟩, hok.2⟩
    | succ i =>
      rw [List.set_cons_succ, bucketsOK_cons_iff]
      refine ⟨hok.1, ih i (off + 1) hok.2 (fun key hk => ?_) hnd⟩
      have := hc key hk
      omega

theorem bucketsOK_mem_hash (cap : Nat) (bs : List (Option (List (K × V)))) :
    ∀ off : Nat, BucketsOK hashF cap off bs →
      ∀ key ∈ chainKeys (entriesFrom bs),
        off ≤ hashF key % cap ∧ hashF key % cap < off + bs.length := by
  induction bs with
  | nil => intro off _ key hk; simp [entriesFrom_nil, chainKeys] at hk
  | cons b bs ih =>
    intro off hok key hk
    rw [bucketsOK_cons_iff] at hok
    rw [entriesFrom_cons] at hk
    simp only [chainKeys, List.map_append, List.mem_append] at hk
    rcases hk with hk | hk
    · have := hok.1.1 key hk
      simp only [List.length_cons]
      omega
    · have := ih (off + 1) hok.2 key hk
      simp only [List.length_cons]
      omega

theorem bucketsOK_nodup_keys (cap : Nat) (bs : List (Option (List (K × V)))) :
    ∀ off : Nat, BucketsOK hashF cap off bs →
      (chainKeys (entriesFrom bs)).Nodup := by
  induction bs with
  | nil => intro off _; simp [entriesFrom_nil, chainKeys]
  | cons b bs ih =>
    intro off hok
    rw [bucketsOK_cons_iff] at hok
    rw [entriesFrom_cons]
    simp only [chainKeys, List.map_append] at ih ⊢
    rw [List.nodup_append]
    refine ⟨hok.1.2, ih (off + 1) hok.2, ?_⟩
    intro key hk1 hk2
    have h1 := hok.1.1 key hk1
    have h2 := (bucketsOK_mem_hash hashF cap bs (off + 1) hok.2 key hk2).1
    omega

/-- The bridge: under `BucketsOK`, scanning the flattened entry list for `k`
is the same as scanning just `k`'s bucket. -/
theorem bucketsOK_find (cap : Nat) (bs : List (Option (List (K × V))))
    (k : K) (i : Nat) : ∀ off : Nat, BucketsOK hashF cap off bs →
      hashF k % cap = off + i → i < bs.length →
      chainFind (entriesFrom bs) k = chainFind ((bs.getD i none).getD []) k := by
  induction bs generalizing i with
  | nil => intro off _ _ h; simp at h
  | cons b bs ih =>
    intro off hok hhash hi
    rw [bucketsOK_cons_iff] at hok
    rw [entriesFrom_cons, chainFind_append]
    cases i with
    | zero =>
      have hnone : chainFind (entriesFrom bs) k = none := by
        rw [chainFind_eq_none_iff]
        intro hk
        have := (bucketsOK_mem_hash hashF cap bs (off + 1) hok.2 k hk).1
        omega
      rw [hnone]
      rcases h : chainFind (b.getD []) k with _ | v <;> simp [h]
    | succ i =>
      have hnone : chainFind (b.getD []) k = none := by
        rw [chainFind_eq_none_iff]
        intro hk
        have := hok.1.1 k hk
        omega
      rw [hnone]
      simp only [Option.none_or, List.getD_cons_succ]
      exact ih i (off + 1) hok.2 (by omega) (by simpa using hi)

end SaltMap

namespace SaltMap

/-! ## The insertion body -/

variable {K V : Type} [DecidableEq K] (hashF : K → Nat)

/-- Full functional specification of the insertion body `insertAt` at the
index the table computes for `k`: it returns the previously stored value,
preserves capacity and the representation invariant, bumps the load exactly
when the key is new, and updates the lookup model pointwise. -/
theorem insertAt_spec (m : HMap K V) (k : K) (v : V) (r : Option V)
    (m1 : HMap K V)
    (hcap : 1 ≤ m.backing.length)
    (hload : m.load = (allEntries m).length)
    (hbuck : BucketsOK hashF m.backing.length 0 m.backing)
    (heq : insertAt m (hashF k % m.backing.length) k v = (r, m1)) :
    r = lookupModel hashF m k ∧
    m1.backing.length = m.backing.length ∧
    m1.load = (allEntries m1).length ∧
    BucketsOK hashF m1.backing.length 0 m1.backing ∧
    m1.load = m.load + (if (lookupModel hashF m k).isSome then 0 else 1) ∧
    lookupModel hashF m1 k = some v ∧
    ∀ k1, k1 ≠ k → lookupModel hashF m1 k1 = lookupModel hashF m k1 := by
  have hcappos : 0 < m.backing.length := hcap
  have hidx : hashF k % m.backing.length < m.backing.length :=
    Nat.mod_lt _ hcappos
  have hlk : lookupModel hashF m k =
      chainFind ((m.backing.getD (hashF k % m.backing.length) none).getD []) k := rfl
  rcases hslot : m.backing.getD (hashF k % m.backing.length) none with _ | chain
  · -- the slot is absent: a fresh one-entry chain is created
    simp only [insertAt, hslot] at heq
    rcases heq with ⟨rfl, rfl⟩
    have hlknone : lookupModel hashF m k = none := by
      rw [hlk, hslot]; rfl
    have hlen : (m.backing.set (hashF k % m.backing.length)
        (some [(k, v)])).length = m.backing.length := List.length_set _ _ _
    have htot := length_entriesFrom_set m.backing (hashF k % m.backing.length)
      [(k, v)] hidx
    rw [hslot] at htot
    simp only [Option.getD_none, List.length_nil, List.length_cons,
      List.length_nil] at htot
    have hload2 : m.load = (entriesFrom m.backing).length := hload
    refine ⟨hlknone.symm, hlen, ?_, ?_, ?_, ?_, ?_⟩
    · show m.load + 1 = (entriesFrom (m.backing.set (hashF k % m.backing.length)
        (some [(k, v)]))).length
      omega
    · show BucketsOK hashF _ 0 _
      rw [hlen]
      exact bucketsOK_set hashF m.backing.length m.backing _ [(k, v)] 0 hbuck
        (by intro key hk; simp [chainKeys] at hk; subst hk; omega)
        (by simp [chainKeys])
    · rw [hlknone]; simp
    · show lookupModel hashF ⟨_, _⟩ k = some v
      unfold lookupModel
      simp only [hlen]
      rw [getD_set_self _ _ _ _ hidx]
      simp [chainFind_cons]
    · intro k1 hne
      show lookupModel hashF ⟨_, _⟩ k1 = lookupModel hashF m k1
      unfold lookupModel
      simp only [hlen]
      by_cases hj : hashF k1 % m.backing.length = hashF k % m.backing.length
      · rw [hj, getD_set_self _ _ _ _ hidx, hslot]
        simp [chainFind_cons, chainFind_nil, hne]
      · rw [getD_set_ne _ _ _ _ _ (fun hh => hj hh.symm)]
  · -- the slot holds a chain: replace in place or push
    have hlkchain : lookupModel hashF m k = chainFind chain k := by
      rw [hlk, hslot]; rfl
    have hchainprops := bucketsOK_get hashF m.backing.length m.backing
      (hashF k % m.backing.length) 0 hbuck hidx
    rw [hslot] at hchainprops
    simp only [Option.getD_some, Nat.zero_add] at hchainprops
    rcases hcrp : chainReplaceOrPush chain k v with ⟨r0, chain1⟩
    have hfst : r0 = chainFind chain k := by
      have := crp_fst chain k v
      rw [hcrp] at this
      exact this
    have hlen : ∀ c : List (K × V),
        (m.backing.set (hashF k % m.backing.length) (some c)).length =
          m.backing.length := fun _ => List.length_set _ _ _
    have hself : chainFind chain1 k = some v := by
      have := crp_lookup_self chain k v
      rw [hcrp] at this
      exact this
    have hother : ∀ k1, k1 ≠ k → chainFind chain1 k1 = chainFind chain k1 := by
      intro k1 hne
      have := crp_lookup_other chain k k1 v hne
      rw [hcrp] at this
      exact this
    have htot := length_entriesFrom_set m.backing (hashF k % m.backing.length)
      chain1 hidx
    rw [hslot] at htot
    simp only [Option.getD_some] at htot
    -- facts shared by both outcomes of the scan
    have hmain : ∀ mres : HMap K V,
        mres.backing = m.backing.set (hashF k % m.backing.length) (some chain1) →
        (chainKeys chain1).Nodup →
        (∀ key ∈ chainKeys chain1, hashF key % m.backing.length =
          hashF k % m.backing.length) →
        BucketsOK hashF mres.backing.length 0 mres.backing ∧
        lookupModel hashF mres k = some v ∧
        ∀ k1, k1 ≠ k → lookupModel hashF mres k1 = lookupModel hashF m k1 := by
      intro mres hmb hnd hhash
      have hlenr : mres.backing.length = m.backing.length := by
        rw [hmb]; exact hlen chain1
      refine ⟨?_, ?_, ?_⟩
      · rw [hlenr, hmb]
        exact bucketsOK_set hashF m.backing.length m.backing _ chain1 0 hbuck
          (by intro key hk; rw [Nat.zero_add]; exact hhash key hk) hnd
      · unfold lookupModel
        rw [hlenr, hmb, getD_set_self _ _ _ _ hidx]
        simpa using hself
      · intro k1 hne
        unfold lookupModel
        rw [hlenr, hmb]
        by_cases hj : hashF k1 % m.backing.length = hashF k % m.backing.length
        · rw [hj, getD_set_self _ _ _ _ hidx, hslot]
          simpa using hother k1 hne
        · rw [getD_set_ne _ _ _ _ _ (fun hh => hj hh.symm)]
    cases r0 with
    | some v0 =>
      -- key found: value replaced in place, load unchanged
      simp only [insertAt, hslot, hcrp] at heq
      rcases heq with ⟨rfl, rfl⟩
      have hfound : (chainFind chain k).isSome = true := by
        rw [← hfst]; rfl
      have hkeys : chainKeys chain1 = chainKeys chain := by
        have := crp_keys_found chain k v hfound
        rw [hcrp] at this
        exact this
      have hckeq : chain1.length = chain.length := by
        have h1 : chain1.length = (chainKeys chain1).length := by
          simp [chainKeys]
        have h2 : chain.length = (chainKeys chain).length := by
          simp [chainKeys]
        rw [h1, h2, hkeys]
      have hm := hmain ⟨m.backing.set (hashF k % m.backing.length)
          (some chain1), m.load⟩ rfl
        (hkeys ▸ hchainprops.2)
        (by intro key hk; rw [hkeys] at hk; exact hchainprops.1 key hk)
      have hload2 : m.load = (entriesFrom m.backing).length := hload
      refine ⟨by rw [hlkchain, hfst], hlen chain1, ?_, hm.1, ?_, hm.2.1, hm.2.2⟩
      · show m.load = (entriesFrom (m.backing.set (hashF k % m.backing.length)
          (some chain1))).length
        omega
      · rw [hlkchain, ← hfst]
        simp
    | none =>
      -- key absent: entry pushed at the end, load incremented
      simp only [insertAt, hslot, hcrp] at heq
      rcases heq with ⟨rfl, rfl⟩
      have hnotfound : chainFind chain k = none := hfst.symm
      have hkeys : chainKeys chain1 = chainKeys chain ++ [k] := by
        have := crp_keys_notfound chain k v hnotfound
        rw [hcrp] at this
        exact this
      have hnotin : k ∉ chainKeys chain :=
        (chainFind_eq_none_iff k chain).1 hnotfound
      have hckeq : chain1.length = chain.length + 1 := by
        have h1 : chain1.length = (chainKeys chain1).length := by
          simp [chainKeys]
        have h2 : chain.length = (chainKeys chain).length := by
          simp [chainKeys]
        rw [h1, h2, hkeys]
        simp
      have hm := hmain ⟨m.backing.set (hashF k % m.backing.length)
          (some chain1), m.load + 1⟩ rfl
        (by
          rw [hkeys]
          exact List.Nodup.append hchainprops.2 (by simp)
            (by intro a ha hb; simp at hb; subst hb; exact hnotin ha))
        (by
          intro key hk
          rw [hkeys] at hk
          rcases List.mem_append.1 hk with hk | hk
          · exact hchainprops.1 key hk
          · simp at hk; subst hk; rfl)
      have hload2 : m.load = (entriesFrom m.backing).length := hload
      refine ⟨by rw [hlkchain, hfst], hlen chain1, ?_, hm.1, ?_, hm.2.1, hm.2.2⟩
      · show m.load + 1 = (entriesFrom (m.backing.set (hashF k % m.backing.length)
          (some chain1))).length
        omega
      · rw [hlkchain, hnotfound]
        simp

end SaltMap

namespace SaltMap

/-! ## Resize and full insert -/

variable {K V : Type} [DecidableEq K] (hashF : K → Nat)

theorem getD_replicate_none (n i : Nat) :
    (List.replicate n (none : Option (List (K × V)))).getD i none = none := by
  induction n generalizing i with
  | zero => simp
  | succ n ih =>
    cases i with
    | zero => simp [List.replicate_succ]
    | succ i =>
      rw [List.replicate_succ, List.getD_cons_succ]
      exact ih i

theorem lookupModel_replicate (n load0 : Nat) (k : K) :
    lookupModel hashF (⟨List.replicate n none, load0⟩ : HMap K V) k = none := by
  unfold lookupModel
  rw [getD_replicate_none]
  rfl

theorem getIndex_pos (m : HMap K V) (k : K) (hcap : 1 ≤ m.backing.length) :
    getIndex hashF m k = some (hashF k % m.backing.length) := by
  have h0 : ¬ m.backing.length = 0 := by omega
  simp [getIndex, h0]

/-- The reinsertion loop never sees the threshold fire (given the load
budget), succeeds, and produces a table whose model is the fresh entries
laid over the starting table. -/
theorem reinsertAll_spec (entries : List (K × V)) : ∀ m : HMap K V,
    1 ≤ m.backing.length →
    m.load = (allEntries m).length →
    BucketsOK hashF m.backing.length 0 m.backing →
    (chainKeys entries).Nodup →
    (∀ p ∈ entries, lookupModel hashF m p.1 = none) →
    (∀ j, j < entries.length → 10 * (m.load + j) ≤ 7 * m.backing.length) →
    ∃ m1, reinsertAll hashF entries m = some m1 ∧
      m1.backing.length = m.backing.length ∧
      m1.load = (allEntries m1).length ∧
      BucketsOK hashF m1.backing.length 0 m1.backing ∧
      m1.load = m.load + entries.length ∧
      ∀ k, lookupModel hashF m1 k =
        match chainFind entries k with
        | some v => some v
        | none => lookupModel hashF m k := by
  induction entries with
  | nil =>
    intro m hcap hload hbuck _ _ _
    exact ⟨m, rfl, rfl, hload, hbuck, by simp, fun k => by simp [chainFind_nil]⟩
  | cons p rest ih =>
    rcases p with ⟨k, v⟩
    intro m hcap hload hbuck hnd hfresh hbound
    have hsr : shouldResize m = false := by
      have := hbound 0 (by simp)
      simp only [shouldResize, decide_eq_false_iff_not, not_lt]
      omega
    rcases hins : insertAt m (hashF k % m.backing.length) k v with ⟨r0, mmid⟩
    have hspec := insertAt_spec hashF m k v r0 mmid hcap hload hbuck hins
    have hfk : lookupModel hashF m k = none := hfresh (k, v) (by simp)
    have hmidload : mmid.load = m.load + 1 := by
      have := hspec.2.2.2.2.1
      rw [hfk] at this
      simpa using this
    have hndcons : (k :: chainKeys rest).Nodup := by
      simpa [chainKeys] using hnd
    have hndrest : (chainKeys rest).Nodup := (List.nodup_cons.1 hndcons).2
    have hknotin : k ∉ chainKeys rest := (List.nodup_cons.1 hndcons).1
    have hfreshrest : ∀ q ∈ rest, lookupModel hashF mmid q.1 = none := by
      intro q hq
      have hqne : q.1 ≠ k := by
        intro hqk
        exact hknotin (hqk ▸ List.mem_map.2 ⟨q, hq, rfl⟩)
      rw [hspec.2.2.2.2.2.2 q.1 hqne]
      exact hfresh q (List.mem_cons_of_mem _ hq)
    have hboundrest : ∀ j, j < rest.length →
        10 * (mmid.load + j) ≤ 7 * mmid.backing.length := by
      intro j hj
      rw [hmidload, hspec.2.1]
      have := hbound (j + 1) (by simpa using Nat.succ_lt_succ hj)
      omega
    rcases ih mmid (by rw [hspec.2.1]; exact hcap) hspec.2.2.1 hspec.2.2.2.1
      hndrest hfreshrest hboundrest with
      ⟨m1, hrun, hlen1, hload1, hbuck1, hloadsum, hmodel1⟩
    refine ⟨m1, ?_, by rw [hlen1, hspec.2.1], hload1, hbuck1, ?_, ?_⟩
    · show reinsertAll hashF ((k, v) :: rest) m = some m1
      simp only [reinsertAll, hsr, getIndex_pos hashF m k hcap, hins]
      simpa using hrun
    · rw [hloadsum, hmidload]
      simp [Nat.add_assoc, Nat.add_comm 1 rest.length]
    · intro k1
      rw [hmodel1 k1, chainFind_cons]
      by_cases hk1 : k1 = k
      · subst hk1
        have hrestnone : chainFind rest k1 = none :=
          (chainFind_eq_none_iff k1 rest).2 hknotin
        rw [hrestnone]
        simp [hspec.2.2.2.2.2.1]
      · simp only [hk1, if_false]
        rcases hcf : chainFind rest k1 with _ | v1
        · simp [hspec.2.2.2.2.2.2 k1 hk1]
        · simp

/-- `resize` succeeds from every well-formed table with at least one slot,
doubles the capacity, and preserves load and the lookup model. -/
theorem resize_spec (m : HMap K V)
    (hcap : 1 ≤ m.backing.length)
    (hload : m.load = (allEntries m).length)
    (hbuck : BucketsOK hashF m.backing.length 0 m.backing)
    (hbound : 10 * m.load ≤ 7 * m.backing.length + 10) :
    ∃ m1, resize hashF m = some m1 ∧
      m1.backing.length = m.backing.length * 2 ∧
      m1.load = m.load ∧
      m1.load = (allEntries m1).length ∧
      BucketsOK hashF m1.backing.length 0 m1.backing ∧
      ∀ k, lookupModel hashF m1 k = lookupModel hashF m k := by
  have hlenrep : (List.replicate (m.backing.length * 2)
      (none : Option (List (K × V)))).length = m.backing.length * 2 :=
    List.length_replicate _ _
  have hnd : (chainKeys (allEntries m)).Nodup :=
    bucketsOK_nodup_keys hashF m.backing.length m.backing 0 hbuck
  have hentlen : (allEntries m).length = m.load := hload.symm
  have hbase1 : 1 ≤ (List.replicate (m.backing.length * 2)
      (none : Option (List (K × V)))).length := by
    rw [hlenrep]; omega
  have hbase2 : (0 : Nat) = (entriesFrom (List.replicate (m.backing.length * 2)
      (none : Option (List (K × V))))).length := by
    rw [entriesFrom_replicate_none]; rfl
  have hbase3 : BucketsOK hashF (List.replicate (m.backing.length * 2)
        (none : Option (List (K × V)))).length 0
      (List.replicate (m.backing.length * 2) (none : Option (List (K × V)))) := by
    rw [hlenrep]
    exact bucketsOK_replicate hashF (m.backing.length * 2) (m.backing.length * 2) 0
  have hbase4 : ∀ j, j < (allEntries m).length →
      10 * (0 + j) ≤ 7 * (List.replicate (m.backing.length * 2)
        (none : Option (List (K × V)))).length := by
    intro j hj
    rw [hentlen] at hj
    rw [hlenrep]
    omega
  rcases reinsertAll_spec hashF (allEntries m)
      ⟨List.replicate (m.backing.length * 2) none, 0⟩
      hbase1 hbase2 hbase3 hnd
      (fun p _ => lookupModel_replicate hashF _ _ _)
      hbase4 with
    ⟨m1, hrun, hlen1, hload1, hbuck1, hloadsum, hmodel1⟩
  have hglobal : ∀ k, chainFind (allEntries m) k = lookupModel hashF m k := by
    intro k
    have hi : hashF k % m.backing.length < m.backing.length :=
      Nat.mod_lt _ hcap
    exact bucketsOK_find hashF m.backing.length m.backing k
      (hashF k % m.backing.length) 0 hbuck (by omega) hi
  refine ⟨m1, hrun, by rw [hlen1, hlenrep], ?_, hload1, hbuck1, ?_⟩
  · rw [hloadsum, hentlen]
    simp
  · intro k
    rw [hmodel1 k, lookupModel_replicate hashF]
    rw [hglobal k]
    rcases h : lookupModel hashF m k with _ | v <;> simp

/-- Full functional specification of `insert` from a well-formed table with
at least one slot: never panics, never re-enters resize, returns the
previous binding, updates the model, bumps the load exactly for new keys,
and at most doubles the capacity. -/
theorem insert_spec (m : HMap K V) (k : K) (v : V)
    (hinv : Inv hashF m) (hcap : 1 ≤ m.backing.length) :
    ∃ m1, insert hashF m k v = some (lookupModel hashF m k, m1) ∧
      Inv hashF m1 ∧
      1 ≤ m1.backing.length ∧
      lookupModel hashF m1 k = some v ∧
      (∀ k1, k1 ≠ k → lookupModel hashF m1 k1 = lookupModel hashF m k1) ∧
      m1.load = m.load + (if (lookupModel hashF m k).isSome then 0 else 1) ∧
      (m1.backing.length = m.backing.length ∨
        m1.backing.length = m.backing.length * 2) := by
  rcases hinv with ⟨hload, hbuck, hbound⟩
  by_cases hsr : shouldResize m = true
  · -- over the threshold: resize first, then insert into the doubled table
    rcases resize_spec hashF m hcap hload hbuck hbound with
      ⟨mr, hrr, hrlen, hrload, hrload2, hrbuck, hrmodel⟩
    have hrcap : 1 ≤ mr.backing.length := by omega
    rcases hins : insertAt mr (hashF k % mr.backing.length) k v with ⟨r0, m1⟩
    have hspec := insertAt_spec hashF mr k v r0 m1 hrcap hrload2 hrbuck hins
    have hsrgt : 10 * m.load > 7 * m.backing.length := by
      simpa [shouldResize] using hsr
    refine ⟨m1, ?_, ⟨hspec.2.2.1, hspec.2.2.2.1, ?_⟩, ?_, ?_, ?_, ?_, ?_⟩
    · show insert hashF m k v = some (lookupModel hashF m k, m1)
      have hstep : (if shouldResize m then resize hashF m else some m) =
          some mr := by
        rw [hsr]
        simpa using hrr
      simp only [insert, hstep, getIndex_pos hashF mr k hrcap, hins]
      rw [hspec.1, hrmodel k]
    · -- the load budget after a resize-then-insert
      have h5 := hspec.2.2.2.2.1
      have h2 := hspec.2.1
      have h6 : m1.load ≤ mr.load + 1 := by
        rcases h : (lookupModel hashF mr k).isSome with _ | _ <;>
          rw [h] at h5 <;> simp at h5 <;> omega
      clear h5 hspec hins hrmodel hrbuck hrload2 hrr hbuck hload
      rcases Nat.lt_or_ge m.backing.length 2 with hsplit | hsplit <;> omega
    · have h2 := hspec.2.1
      omega
    · exact hspec.2.2.2.2.2.1
    · intro k1 hne
      rw [hspec.2.2.2.2.2.2 k1 hne, hrmodel k1]
    · have h5 := hspec.2.2.2.2.1
      rw [hrmodel k] at h5
      omega
    · right
      rw [hspec.2.1, hrlen]
  · -- under the threshold: plain insert
    have hsrf : shouldResize m = false := by
      simpa using hsr
    have hle : 10 * m.load ≤ 7 * m.backing.length := by
      simpa [shouldResize, decide_eq_false_iff_not, Nat.not_lt] using hsrf
    rcases hins : insertAt m (hashF k % m.backing.length) k v with ⟨r0, m1⟩
    have hspec := insertAt_spec hashF m k v r0 m1 hcap hload hbuck hins
    refine ⟨m1, ?_, ⟨hspec.2.2.1, hspec.2.2.2.1, ?_⟩, ?_, hspec.2.2.2.2.2.1,
      hspec.2.2.2.2.2.2, hspec.2.2.2.2.1, Or.inl hspec.2.1⟩
    · show insert hashF m k v = some (lookupModel hashF m k, m1)
      have hstep : (if shouldResize m then resize hashF m else some m) =
          some m := by
        rw [hsrf]
        simp
      simp only [insert, hstep, getIndex_pos hashF m k hcap, hins]
      rw [hspec.1]
    · have h5 := hspec.2.2.2.2.1
      have h2 := hspec.2.1
      have h6 : m1.load ≤ m.load + 1 := by
        rcases h : (lookupModel hashF m k).isSome with _ | _ <;>
          rw [h] at h5 <;> simp at h5 <;> omega
      omega
    · have h2 := hspec.2.1
      omega

/-- `get` agrees with the lookup model on every table with at least one
slot (and in particular returns normally). -/
theorem get_spec (m : HMap K V) (k : K) (hcap : 1 ≤ m.backing.length) :
    get hashF m k = some (lookupModel hashF m k) := by
  simp only [get, getIndex_pos hashF m k hcap]
  rfl

/-- `get_mut` performs the same traversal as `get`. -/
theorem getMut_spec (m : HMap K V) (k : K) (hcap : 1 ≤ m.backing.length) :
    getMut hashF m k = some (lookupModel hashF m k) := by
  simp only [getMut, getIndex_pos hashF m k hcap]
  rfl

end SaltMap

namespace SaltMap

/-! ## The removal path -/

variable {K V : Type} [DecidableEq K] (hashF : K → Nat)

theorem removeIndices_from (k : K) (c : List (K × V)) : ∀ n : Nat,
    (((List.enumFrom n c).filter (fun p => decide (k = p.2.1))).map
        (fun p => p.1)).head? =
      (firstKeyIdx k c).map (fun i => n + i) := by
  induction c with
  | nil => intro n; rfl
  | cons p rest ih =>
    rcases p with ⟨k0, v0⟩
    intro n
    rw [List.enumFrom_cons, List.filter_cons]
    by_cases h : k = k0
    · simp [h, firstKeyIdx]
    · rw [if_neg (by simp [h]), ih (n + 1)]
      simp only [firstKeyIdx, h, if_false]
      rcases firstKeyIdx k rest with _ | i
      · rfl
      · simp [Nat.add_assoc, Nat.add_comm 1 i]

/-- The head of `indices_vec` in `remove_entry` is the position of the first
matching entry. -/
theorem removeIndices_head (k : K) (c : List (K × V)) :
    (removeIndices c k).head? = firstKeyIdx k c := by
  unfold removeIndices
  rw [List.enum_eq_enumFrom, removeIndices_from k c 0]
  rcases firstKeyIdx k c with _ | i <;> simp

theorem firstKeyIdx_none (k : K) (c : List (K × V)) :
    firstKeyIdx k c = none ↔ chainFind c k = none := by
  induction c with
  | nil => simp [firstKeyIdx, chainFind_nil]
  | cons p rest ih =>
    rcases p with ⟨k0, v0⟩
    rw [chainFind_cons]
    by_cases h : k = k0 <;> simp [firstKeyIdx, h, ih]

theorem firstKeyIdx_some (k : K) (c : List (K × V)) :
    ∀ i, firstKeyIdx k c = some i →
      ∃ v, c.get? i = some (k, v) ∧ chainFind c k = some v := by
  induction c with
  | nil => intro i h; simp [firstKeyIdx] at h
  | cons p rest ih =>
    rcases p with ⟨k0, v0⟩
    intro i h
    by_cases hk : k = k0
    · simp only [firstKeyIdx, hk, if_true] at h
      subst hk
      cases h
      exact ⟨v0, rfl, by rw [chainFind_cons]; simp⟩
    · simp only [firstKeyIdx, hk, if_false, Option.map_eq_some'] at h
      rcases h with ⟨j, hj, rfl⟩
      rcases ih j hj with ⟨v, hget, hfind⟩
      exact ⟨v, hget, by rw [chainFind_cons]; simp [hk, hfind]⟩

theorem chainFind_eraseIdx_other (k k1 : K) (hne : k1 ≠ k) (c : List (K × V)) :
    ∀ i, firstKeyIdx k c = some i →
      chainFind (c.eraseIdx i) k1 = chainFind c k1 := by
  induction c with
  | nil => intro i h; simp [firstKeyIdx] at h
  | cons p rest ih =>
    rcases p with ⟨k0, v0⟩
    intro i h
    by_cases hk : k = k0
    · simp only [firstKeyIdx, hk, if_true] at h
      cases h
      rw [List.eraseIdx_cons_zero, chainFind_cons]
      have h1 : k1 ≠ k0 := fun hh => hne (hh.trans hk.symm)
      simp [h1]
    · simp only [firstKeyIdx, hk, if_false, Option.map_eq_some'] at h
      rcases h with ⟨j, hj, rfl⟩
      rw [List.eraseIdx_cons_succ, chainFind_cons, chainFind_cons]
      by_cases h1 : k1 = k0 <;> simp [h1, ih j hj]

theorem chainFind_eraseIdx_self (k : K) (c : List (K × V)) :
    ∀ i, (chainKeys c).Nodup → firstKeyIdx k c = some i →
      chainFind (c.eraseIdx i) k = none := by
  induction c with
  | nil => intro i _ h; simp [firstKeyIdx] at h
  | cons p rest ih =>
    rcases p with ⟨k0, v0⟩
    intro i hnd h
    have hndc : (k0 :: chainKeys rest).Nodup := by simpa [chainKeys] using hnd
    by_cases hk : k = k0
    · simp only [firstKeyIdx, hk, if_true] at h
      cases h
      rw [List.eraseIdx_cons_zero, chainFind_eq_none_iff]
      rw [hk]
      exact (List.nodup_cons.1 hndc).1
    · simp only [firstKeyIdx, hk, if_false, Option.map_eq_some'] at h
      rcases h with ⟨j, hj, rfl⟩
      rw [List.eraseIdx_cons_succ, chainFind_cons]
      simp only [hk, if_false]
      exact ih j (by
        have := (List.nodup_cons.1 hndc).2
        simpa [chainKeys] using this) hj

theorem chainKeys_eraseIdx_sublist (c : List (K × V)) (i : Nat) :
    (chainKeys (c.eraseIdx i)).Sublist (chainKeys c) :=
  List.Sublist.map _ (List.eraseIdx_sublist c i)

/-- Full functional specification of `remove_entry` from a well-formed table
with at least one slot: absent keys leave the table untouched and return the
absence marker; present keys are removed with their originally stored key,
the load drops by one, and no other binding changes. -/
theorem removeEntry_spec (m : HMap K V) (k : K)
    (hinv : Inv hashF m) (hcap : 1 ≤ m.backing.length) :
    (lookupModel hashF m k = none → removeEntry hashF m k = some none) ∧
    ∀ v, lookupModel hashF m k = some v →
      ∃ m1, removeEntry hashF m k = some (some ((k, v), m1)) ∧
        Inv hashF m1 ∧
        m1.backing.length = m.backing.length ∧
        m1.load + 1 = m.load ∧
        lookupModel hashF m1 k = none ∧
        ∀ k1, k1 ≠ k → lookupModel hashF m1 k1 = lookupModel hashF m k1 := by
  rcases hinv with ⟨hload, hbuck, hbound⟩
  have hidx : hashF k % m.backing.length < m.backing.length :=
    Nat.mod_lt _ hcap
  have hlk : lookupModel hashF m k =
      chainFind ((m.backing.getD (hashF k % m.backing.length) none).getD []) k := rfl
  rcases hslot : m.backing.getD (hashF k % m.backing.length) none with _ | chain
  · -- absent slot: return the absence marker, no mutation
    have hlknone : lookupModel hashF m k = none := by rw [hlk, hslot]; rfl
    refine ⟨fun _ => ?_, fun v hv => by
      rw [hlknone] at hv
      exact Option.noConfusion hv⟩
    simp only [removeEntry, getIndex_pos hashF m k hcap, hslot]
  · have hlkchain : lookupModel hashF m k = chainFind chain k := by
      rw [hlk, hslot]; rfl
    have hchainprops := bucketsOK_get hashF m.backing.length m.backing
      (hashF k % m.backing.length) 0 hbuck hidx
    rw [hslot] at hchainprops
    simp only [Option.getD_some, Nat.zero_add] at hchainprops
    rcases hfk : firstKeyIdx k chain with _ | i
    · -- no matching entry in the chain
      have hnone : chainFind chain k = none := (firstKeyIdx_none k chain).1 hfk
      refine ⟨fun _ => ?_, fun v hv => by
        rw [hlkchain, hnone] at hv
        exact Option.noConfusion hv⟩
      simp only [removeEntry, getIndex_pos hashF m k hcap, hslot,
        removeIndices_head, hfk]
    · -- the first matching entry sits at position i
      rcases firstKeyIdx_some k chain i hfk with ⟨v0, hget, hfind⟩
      have hilt : i < chain.length := by
        rcases List.get?_eq_some.1 hget with ⟨hl, _⟩
        exact hl
      have herase : (chain.eraseIdx i).length = chain.length - 1 := by
        rw [List.length_eraseIdx]
        simp [hilt]
      have hchainpos : 1 ≤ chain.length := by omega
      have hchainle := chain_length_le_entriesFrom m.backing
        (hashF k % m.backing.length)
      rw [hslot] at hchainle
      simp only [Option.getD_some] at hchainle
      have hloadpos : 1 ≤ m.load := by
        have : m.load = (entriesFrom m.backing).length := hload
        omega
      have htot := length_entriesFrom_set m.backing (hashF k % m.backing.length)
        (chain.eraseIdx i) hidx
      rw [hslot] at htot
      simp only [Option.getD_some] at htot
      have hrun : removeEntry hashF m k = some (some (((k, v0)),
          ⟨m.backing.set (hashF k % m.backing.length)
            (some (chain.eraseIdx i)), m.load - 1⟩)) := by
        simp only [removeEntry, getIndex_pos hashF m k hcap, hslot,
          removeIndices_head, hfk, hget]
      have hlen1 : (m.backing.set (hashF k % m.backing.length)
          (some (chain.eraseIdx i))).length = m.backing.length :=
        List.length_set _ _ _
      have hsub := chainKeys_eraseIdx_sublist chain i
      refine ⟨fun habs => by
          rw [hlkchain, hfind] at habs
          exact Option.noConfusion habs,
        fun v hv => ?_⟩
      have hv0 : v0 = v := by
        rw [hlkchain, hfind] at hv
        exact Option.some.inj hv
      subst hv0
      refine ⟨_, hrun, ⟨?_, ?_, ?_⟩, hlen1, ?_, ?_, ?_⟩
      · show m.load - 1 = (entriesFrom (m.backing.set
          (hashF k % m.backing.length) (some (chain.eraseIdx i)))).length
        have : m.load = (entriesFrom m.backing).length := hload
        omega
      · rw [hlen1]
        exact bucketsOK_set hashF m.backing.length m.backing _ _ 0 hbuck
          (fun key hk => by
            have := hchainprops.1 key (hsub.subset hk)
            omega)
          (hchainprops.2.sublist hsub)
      · show 10 * (m.load - 1) ≤ 7 * (m.backing.set
          (hashF k % m.backing.length) (some (chain.eraseIdx i))).length + 10
        rw [hlen1]
        omega
      · show m.load - 1 + 1 = m.load
        omega
      · show lookupModel hashF ⟨_, _⟩ k = none
        unfold lookupModel
        simp only [hlen1]
        rw [getD_set_self _ _ _ _ hidx]
        simp only [Option.getD_some]
        exact chainFind_eraseIdx_self k chain i hchainprops.2 hfk
      · intro k1 hne
        show lookupModel hashF ⟨_, _⟩ k1 = lookupModel hashF m k1
        unfold lookupModel
        simp only [hlen1]
        by_cases hj : hashF k1 % m.backing.length = hashF k % m.backing.length
        · rw [hj, getD_set_self _ _ _ _ hidx, hslot]
          simp only [Option.getD_some]
          exact chainFind_eraseIdx_other k k1 hne chain i hfk
        · rw [getD_set_ne _ _ _ _ _ (fun hh => hj hh.symm)]

end SaltMap

namespace SaltMap

/-! ## Constructor invariants, zero-capacity behaviour, reachability -/

variable {K V : Type} [DecidableEq K] (hashF : K → Nat)

theorem inv_withCapacity (n : Nat) : Inv hashF (withCapacity K V n) := by
  refine ⟨?_, ?_, ?_⟩
  · show (0 : Nat) = (entriesFrom (makeBackingWithCapacity K V n)).length
    unfold makeBackingWithCapacity
    rw [entriesFrom_replicate_none]
    rfl
  · show BucketsOK hashF (makeBackingWithCapacity K V n).length 0
      (makeBackingWithCapacity K V n)
    unfold makeBackingWithCapacity
    rw [List.length_replicate]
    exact bucketsOK_replicate hashF _ _ 0
  · show 10 * 0 ≤ 7 * (makeBackingWithCapacity K V n).length + 10
    omega

theorem inv_withCapacityAndHasher (n : Nat) :
    Inv hashF (withCapacityAndHasher K V n) :=
  inv_withCapacity hashF n

theorem inv_clear (m : HMap K V) : Inv hashF (clear m) := by
  refine ⟨?_, ?_, ?_⟩
  · show (0 : Nat) = (entriesFrom (m.backing.map fun _ => none)).length
    rw [entriesFrom_map_none]
    rfl
  · show BucketsOK hashF (m.backing.map fun _ => none).length 0
      (m.backing.map fun _ => none)
    exact bucketsOK_map_none hashF _ m.backing 0
  · show 10 * 0 ≤ 7 * (m.backing.map fun _ => none).length + 10
    omega

theorem withCapacity_length (n : Nat) :
    (withCapacity K V n).backing.length = 10 * n / 7 := by
  show (makeBackingWithCapacity K V n).length = 10 * n / 7
  unfold makeBackingWithCapacity
  exact List.length_replicate _ _

theorem withCapacity_pos (n : Nat) (hn : 1 ≤ n) :
    1 ≤ (withCapacity K V n).backing.length := by
  rw [withCapacity_length]
  omega

/-- With an empty backing (the `with_capacity(0)` table), `insert` hits the
`% 0` in `get_index` and panics, whatever the hash function and arguments. -/
theorem insert_none_of_cap0 (m : HMap K V) (k : K) (v : V)
    (hcap : m.backing.length = 0) : insert hashF m k v = none := by
  have hb : m.backing = [] := List.length_eq_zero.1 hcap
  by_cases hsr : shouldResize m = true
  · have hres : resize hashF m = some ⟨List.replicate (m.backing.length * 2) none, 0⟩ := by
      unfold resize allEntries
      rw [hb]
      rfl
    have hstep : (if shouldResize m then resize hashF m else some m) =
        some (⟨List.replicate (m.backing.length * 2) none, 0⟩ : HMap K V) := by
      rw [hsr]
      simpa using hres
    have hgi : getIndex hashF (⟨List.replicate (m.backing.length * 2) none, 0⟩ :
        HMap K V) k = none := by
      unfold getIndex
      rw [hcap]
      simp
    simp only [insert, hstep, hgi]
  · have hsrf : shouldResize m = false := by simpa using hsr
    have hstep : (if shouldResize m then resize hashF m else some m) = some m := by
      rw [hsrf]
      simp
    have hgi : getIndex hashF m k = none := by
      unfold getIndex
      rw [hcap]
      simp
    simp only [insert, hstep, hgi]

theorem get_none_of_cap0 (m : HMap K V) (k : K)
    (hcap : m.backing.length = 0) : get hashF m k = none := by
  simp [get, getIndex, hcap]

theorem getMut_none_of_cap0 (m : HMap K V) (k : K)
    (hcap : m.backing.length = 0) : getMut hashF m k = none := by
  simp [getMut, getIndex, hcap]

theorem removeEntry_none_of_cap0 (m : HMap K V) (k : K)
    (hcap : m.backing.length = 0) : removeEntry hashF m k = none := by
  simp [removeEntry, getIndex, hcap]

theorem remove_none_of_cap0 (m : HMap K V) (k : K)
    (hcap : m.backing.length = 0) : remove hashF m k = none := by
  simp [remove, removeEntry_none_of_cap0 hashF m k hcap]

/-- A successful `remove_entry` preserves the representation invariant. -/
theorem removeEntry_some_inv (m : HMap K V) (k : K) (e : K × V) (m1 : HMap K V)
    (hinv : Inv hashF m) (heq : removeEntry hashF m k = some (some (e, m1))) :
    Inv hashF m1 := by
  by_cases hcap : 1 ≤ m.backing.length
  · rcases hlk : lookupModel hashF m k with _ | v
    · rw [(removeEntry_spec hashF m k hinv hcap).1 hlk] at heq
      simp at heq
    · rcases (removeEntry_spec hashF m k hinv hcap).2 v hlk with
        ⟨m2, heq2, hinv2, _⟩
      rw [heq2] at heq
      simp only [Option.some.injEq, Prod.mk.injEq] at heq
      rw [← heq.2]
      exact hinv2
  · exfalso
    rw [removeEntry_none_of_cap0 hashF m k (by omega)] at heq
    exact Option.noConfusion heq

/-- Every reachable table satisfies the representation invariant. -/
theorem reachable_inv (m : HMap K V) (h : Reachable hashF m) : Inv hashF m := by
  induction h with
  | withCapacity n => exact inv_withCapacity hashF n
  | withCapacityAndHasher n => exact inv_withCapacityAndHasher hashF n
  | mkNew => exact inv_withCapacity hashF 20
  | insert m k v r m1 _ heq ih =>
    by_cases hcap : 1 ≤ m.backing.length
    · rcases insert_spec hashF m k v ih hcap with ⟨m2, heq2, hinv2, _⟩
      rw [heq2] at heq
      simp only [Option.some.injEq, Prod.mk.injEq] at heq
      rw [← heq.2]
      exact hinv2
    · exfalso
      rw [insert_none_of_cap0 hashF m k v (by omega)] at heq
      exact Option.noConfusion heq
  | removeEntry m k e m1 _ heq ih => exact removeEntry_some_inv hashF m k e m1 ih heq
  | remove m k v m1 _ heq ih =>
    rcases hre : removeEntry hashF m k with _ | r
    · rw [remove, hre] at heq
      simp at heq
    · rcases r with _ | ⟨ekv, m2⟩
      · rw [remove, hre] at heq
        simp at heq
      · rw [remove, hre] at heq
        simp only [Option.map_some', Option.some.injEq, Prod.mk.injEq] at heq
        exact removeEntry_some_inv hashF m k ekv m1 ih (by rw [hre, heq.2])
  | clear m _ _ => exact inv_clear hashF m

end SaltMap

namespace SaltMap

/-! ## Sequences of insertions -/

variable {K V : Type} [DecidableEq K] (hashF : K → Nat)

theorem lastValue_nil (k : K) : lastValue ([] : List (K × V)) k = none := rfl

theorem lastValue_cons (k k0 : K) (v0 : V) (l : List (K × V)) :
    lastValue ((k0, v0) :: l) k =
      match lastValue l k with
      | some v => some v
      | none => if k = k0 then some v0 else none := by
  unfold lastValue
  rw [List.reverse_cons, List.find?_append]
  rcases h : List.find? (fun p => decide (k = p.1)) l.reverse with _ | p
  · rw [h]
    by_cases hk : k = k0 <;> simp [List.find?_cons, hk]
  · rw [h]
    simp

/-- Folding any list of insertions through `insert` from a well-formed table
succeeds and leaves the model equal to the last value written per key,
regardless of resizes happening mid-sequence. -/
theorem foldInsert_model (l : List (K × V)) : ∀ m : HMap K V,
    Inv hashF m → 1 ≤ m.backing.length →
    ∃ m1, foldInsert hashF m l = some m1 ∧ Inv hashF m1 ∧
      1 ≤ m1.backing.length ∧
      ∀ k, lookupModel hashF m1 k =
        match lastValue l k with
        | some v => some v
        | none => lookupModel hashF m k := by
  induction l with
  | nil =>
    intro m hinv hcap
    exact ⟨m, rfl, hinv, hcap, fun k => by rw [lastValue_nil]⟩
  | cons p rest ih =>
    rcases p with ⟨k0, v0⟩
    intro m hinv hcap
    rcases insert_spec hashF m k0 v0 hinv hcap with
      ⟨mmid, heq, hinvmid, hcapmid, hself, hother, _, _⟩
    rcases ih mmid hinvmid hcapmid with ⟨m1, hrun, hinv1, hcap1, hmodel⟩
    refine ⟨m1, ?_, hinv1, hcap1, ?_⟩
    · show foldInsert hashF m ((k0, v0) :: rest) = some m1
      simp only [foldInsert, heq]
      exact hrun
    · intro k
      rw [hmodel k, lastValue_cons]
      by_cases hk : k = k0
      · subst hk
        rcases hlv : lastValue rest k with _ | v
        · simp [hself]
        · simp
      · rcases hlv : lastValue rest k with _ | v
        · simp [hk, hother k hk]
        · simp

/-- Folding insertions of distinct fresh keys under the load budget: no
resize check ever fires, capacity is unchanged, the load counts the
insertions, and the model accumulates the entries. -/
theorem foldInsert_fresh (l : List (K × V)) : ∀ m : HMap K V,
    Inv hashF m → 1 ≤ m.backing.length →
    (chainKeys l).Nodup →
    (∀ p ∈ l, lookupModel hashF m p.1 = none) →
    (∀ j, j < l.length → 10 * (m.load + j) ≤ 7 * m.backing.length) →
    ∃ m1, foldInsert hashF m l = some m1 ∧ Inv hashF m1 ∧
      m1.backing.length = m.backing.length ∧
      m1.load = m.load + l.length ∧
      ∀ k, lookupModel hashF m1 k =
        match chainFind l k with
        | some v => some v
        | none => lookupModel hashF m k := by
  induction l with
  | nil =>
    intro m hinv hcap _ _ _
    exact ⟨m, rfl, hinv, rfl, by simp, fun k => by rw [chainFind_nil]⟩
  | cons p rest ih =>
    rcases p with ⟨k, v⟩
    intro m hinv hcap hnd hfresh hbound
    rcases hinv with ⟨hload, hbuck, hbnd⟩
    have hsr : shouldResize m = false := by
      have := hbound 0 (by simp)
      simp only [shouldResize, decide_eq_false_iff_not, not_lt]
      omega
    have hle : 10 * m.load ≤ 7 * m.backing.length := by
      have := hbound 0 (by simp)
      omega
    rcases hins : insertAt m (hashF k % m.backing.length) k v with ⟨r0, mmid⟩
    have hspec := insertAt_spec hashF m k v r0 mmid hcap hload hbuck hins
    have heq : insert hashF m k v = some (lookupModel hashF m k, mmid) := by
      have hstep : (if shouldResize m then resize hashF m else some m) =
          some m := by
        rw [hsr]
        simp
      simp only [insert, hstep, getIndex_pos hashF m k hcap, hins]
      rw [hspec.1]
    have hfk : lookupModel hashF m k = none := hfresh (k, v) (by simp)
    have hmidload : mmid.load = m.load + 1 := by
      have := hspec.2.2.2.2.1
      rw [hfk] at this
      simpa using this
    have hndcons : (k :: chainKeys rest).Nodup := by
      simpa [chainKeys] using hnd
    have hndrest : (chainKeys rest).Nodup := (List.nodup_cons.1 hndcons).2
    have hknotin : k ∉ chainKeys rest := (List.nodup_cons.1 hndcons).1
    have hinvmid : Inv hashF mmid := by
      refine ⟨hspec.2.2.1, hspec.2.2.2.1, ?_⟩
      rw [hmidload, hspec.2.1]
      omega
    have hfreshrest : ∀ q ∈ rest, lookupModel hashF mmid q.1 = none := by
      intro q hq
      have hqne : q.1 ≠ k := by
        intro hqk
        exact hknotin (hqk ▸ List.mem_map.2 ⟨q, hq, rfl⟩)
      rw [hspec.2.2.2.2.2.2 q.1 hqne]
      exact hfresh q (List.mem_cons_of_mem _ hq)
    have hboundrest : ∀ j, j < rest.length →
        10 * (mmid.load + j) ≤ 7 * mmid.backing.length := by
      intro j hj
      rw [hmidload, hspec.2.1]
      have := hbound (j + 1) (by simpa using Nat.succ_lt_succ hj)
      omega
    rcases ih mmid hinvmid (by rw [hspec.2.1]; exact hcap) hndrest hfreshrest
      hboundrest with ⟨m1, hrun, hinv1, hlen1, hloadsum, hmodel1⟩
    refine ⟨m1, ?_, hinv1, by rw [hlen1, hspec.2.1], ?_, ?_⟩
    · show foldInsert hashF m ((k, v) :: rest) = some m1
      simp only [foldInsert, heq]
      exact hrun
    · rw [hloadsum, hmidload]
      simp [Nat.add_assoc, Nat.add_comm 1 rest.length]
    · intro k1
      rw [hmodel1 k1, chainFind_cons]
      by_cases hk1 : k1 = k
      · subst hk1
        have hrestnone : chainFind rest k1 = none :=
          (chainFind_eq_none_iff k1 rest).2 hknotin
        rw [hrestnone]
        simp [hspec.2.2.2.2.2.1]
      · simp only [hk1, if_false]
        rcases hcf : chainFind rest k1 with _ | v1
        · simp [hspec.2.2.2.2.2.2 k1 hk1]
        · simp

end SaltMap

namespace SaltMap

/-! ## Remaining helpers for the claims -/

variable {K V : Type} [DecidableEq K] (hashF : K → Nat)

theorem inv_replicate (n : Nat) :
    Inv hashF (⟨List.replicate n none, 0⟩ : HMap K V) := by
  refine ⟨?_, ?_, ?_⟩
  · show (0 : Nat) = (entriesFrom (List.replicate n
      (none : Option (List (K × V))))).length
    rw [entriesFrom_replicate_none]
    rfl
  · show BucketsOK hashF (List.replicate n
        (none : Option (List (K × V)))).length 0 (List.replicate n none)
    rw [List.length_replicate]
    exact bucketsOK_replicate hashF _ _ 0
  · show 10 * 0 ≤ 7 * (List.replicate n
      (none : Option (List (K × V)))).length + 10
    omega

theorem lookupModel_withCapacity (n : Nat) (k : K) :
    lookupModel hashF (withCapacity K V n) k = none :=
  lookupModel_replicate hashF _ _ k

theorem chainKeys_take_nodup (l : List (K × V)) (i : Nat)
    (h : (chainKeys l).Nodup) : (chainKeys (l.take i)).Nodup := by
  have hs : (chainKeys (l.take i)).Sublist (chainKeys l) := by
    unfold chainKeys
    exact List.Sublist.map _ (List.take_sublist i l)
  exact hs.nodup h

end SaltMap

namespace SaltMap

/-! ## The claims -/

/-- C1: for every sequence of insertions into a well-formed table with at
least one slot (so in particular every table built by `with_capacity(n)`,
`n ≥ 1`, or `new()`), the whole fold returns normally — regardless of any
resize occurring mid-sequence — and afterwards `get` on each inserted key
returns the last value written for that key. -/
theorem c1_insert_sequence_last_values {K V : Type} [DecidableEq K]
    (hashF : K → Nat) (m : HMap K V) (l : List (K × V))
    (hinv : Inv hashF m) (hcap : 1 ≤ m.backing.length) :
    ∃ m1, foldInsert hashF m l = some m1 ∧
      ∀ k v, lastValue l k = some v → get hashF m1 k = some (some v) := by
  rcases foldInsert_model hashF l m hinv hcap with ⟨m1, hrun, _, hcap1, hmodel⟩
  refine ⟨m1, hrun, fun k v hlv => ?_⟩
  rw [get_spec hashF m1 k hcap1, hmodel k, hlv]

theorem c1_witness :
    ∃ m1, foldInsert (fun n : Nat => n) (withCapacity Nat Nat 1)
        [(0, 1), (1, 2), (0, 3)] = some m1 ∧
      ∀ k v, lastValue [(0, 1), (1, 2), (0, 3)] k = some v →
        get (fun n : Nat => n) m1 k = some (some v) :=
  c1_insert_sequence_last_values (fun n : Nat => n) (withCapacity Nat Nat 1)
    [(0, 1), (1, 2), (0, 3)] (inv_withCapacity _ 1) (by decide)

/-- C2: inserting a key that is not currently present returns the absence
marker, a subsequent `get` returns the new value, and the load grows by
exactly one. -/
theorem c2_insert_new_key {K V : Type} [DecidableEq K] (hashF : K → Nat)
    (m : HMap K V) (k : K) (v : V)
    (hinv : Inv hashF m) (hcap : 1 ≤ m.backing.length)
    (habs : lookupModel hashF m k = none) :
    ∃ m1, insert hashF m k v = some (none, m1) ∧
      get hashF m1 k = some (some v) ∧
      m1.load = m.load + 1 := by
  rcases insert_spec hashF m k v hinv hcap with
    ⟨m1, heq, _, hcap1, hself, _, hload, _⟩
  rw [habs] at heq hload
  refine ⟨m1, heq, ?_, ?_⟩
  · rw [get_spec hashF m1 k hcap1, hself]
  · simpa using hload

theorem c2_witness :
    ∃ m1, insert (fun n : Nat => n) (withCapacity Nat Nat 1) 0 5 =
        some (none, m1) ∧
      get (fun n : Nat => n) m1 0 = some (some 5) ∧
      m1.load = (withCapacity Nat Nat 1).load + 1 :=
  c2_insert_new_key (fun n : Nat => n) (withCapacity Nat Nat 1) 0 5
    (inv_withCapacity _ 1) (by decide) (by decide)

/-- C3: inserting over an existing key returns the previous value, `get` then
yields the new value, the load is unchanged, and the set of stored keys is
unchanged (the embedding of the scan, `chainReplaceOrPush`, keeps the
originally stored key component and replaces only the value in place). -/
theorem c3_insert_existing_key {K V : Type} [DecidableEq K] (hashF : K → Nat)
    (m : HMap K V) (k : K) (v1 v2 : V)
    (hinv : Inv hashF m) (hcap : 1 ≤ m.backing.length)
    (hfound : lookupModel hashF m k = some v1) :
    ∃ m1, insert hashF m k v2 = some (some v1, m1) ∧
      get hashF m1 k = some (some v2) ∧
      m1.load = m.load ∧
      ∀ k1, (lookupModel hashF m1 k1).isSome = (lookupModel hashF m k1).isSome := by
  rcases insert_spec hashF m k v2 hinv hcap with
    ⟨m1, heq, _, hcap1, hself, hother, hload, _⟩
  rw [hfound] at heq hload
  refine ⟨m1, heq, ?_, ?_, ?_⟩
  · rw [get_spec hashF m1 k hcap1, hself]
  · simpa using hload
  · intro k1
    by_cases hk : k1 = k
    · subst hk
      simp [hself, hfound]
    · rw [hother k1 hk]

theorem c3_witness :
    ∃ m1, insert (fun n : Nat => n) (⟨[some [(0, 5)]], 1⟩ : HMap Nat Nat) 0 6 =
        some (some 5, m1) ∧
      get (fun n : Nat => n) m1 0 = some (some 6) ∧
      m1.load = (⟨[some [(0, 5)]], 1⟩ : HMap Nat Nat).load ∧
      ∀ k1, (lookupModel (fun n : Nat => n) m1 k1).isSome =
        (lookupModel (fun n : Nat => n) (⟨[some [(0, 5)]], 1⟩ : HMap Nat Nat) k1).isSome :=
  c3_insert_existing_key (fun n : Nat => n) (⟨[some [(0, 5)]], 1⟩ : HMap Nat Nat)
    0 5 6 (by decide) (by decide) (by decide)

/-- C4: `remove_entry` / `remove` return the stored pair / value exactly when
the key is present; then the load drops by one and a subsequent `get` is
absent; on an absent key (including a never-populated bucket slot) they
return the absence marker and, by the shape of the result, the table is the
untouched original, so every stored entry and the load are unchanged. -/
theorem c4_remove_semantics {K V : Type} [DecidableEq K] (hashF : K → Nat)
    (m : HMap K V) (k : K)
    (hinv : Inv hashF m) (hcap : 1 ≤ m.backing.length) :
    (lookupModel hashF m k = none →
      removeEntry hashF m k = some none ∧ remove hashF m k = some none) ∧
    ∀ v, lookupModel hashF m k = some v →
      ∃ m1, removeEntry hashF m k = some (some ((k, v), m1)) ∧
        remove hashF m k = some (some (v, m1)) ∧
        m1.load + 1 = m.load ∧
        get hashF m1 k = some none ∧
        ∀ k1, k1 ≠ k → get hashF m1 k1 = get hashF m k1 := by
  have hspec := removeEntry_spec hashF m k hinv hcap
  constructor
  · intro habs
    have h1 := hspec.1 habs
    exact ⟨h1, by rw [remove, h1]; rfl⟩
  · intro v hv
    rcases hspec.2 v hv with ⟨m1, h1, _, hlen1, hload1, hself, hother⟩
    have hcap1 : 1 ≤ m1.backing.length := by omega
    refine ⟨m1, h1, by rw [remove, h1]; rfl, hload1, ?_, ?_⟩
    · rw [get_spec hashF m1 k hcap1, hself]
    · intro k1 hk
      rw [get_spec hashF m1 k1 hcap1, get_spec hashF m k1 hcap, hother k1 hk]

theorem c4_witness :
    ((lookupModel (fun n : Nat => n) (⟨[some [(0, 5)]], 1⟩ : HMap Nat Nat) 1 = none →
      removeEntry (fun n : Nat => n) (⟨[some [(0, 5)]], 1⟩ : HMap Nat Nat) 1 =
          some none ∧
        remove (fun n : Nat => n) (⟨[some [(0, 5)]], 1⟩ : HMap Nat Nat) 1 =
          some none) ∧
    ∀ v, lookupModel (fun n : Nat => n) (⟨[some [(0, 5)]], 1⟩ : HMap Nat Nat) 1 =
        some v →
      ∃ m1, removeEntry (fun n : Nat => n)
            (⟨[some [(0, 5)]], 1⟩ : HMap Nat Nat) 1 = some (some ((1, v), m1)) ∧
        remove (fun n : Nat => n) (⟨[some [(0, 5)]], 1⟩ : HMap Nat Nat) 1 =
          some (some (v, m1)) ∧
        m1.load + 1 = (⟨[some [(0, 5)]], 1⟩ : HMap Nat Nat).load ∧
        get (fun n : Nat => n) m1 1 = some none ∧
        ∀ k1, k1 ≠ 1 → get (fun n : Nat => n) m1 k1 =
          get (fun n : Nat => n) (⟨[some [(0, 5)]], 1⟩ : HMap Nat Nat) k1) :=
  c4_remove_semantics (fun n : Nat => n) (⟨[some [(0, 5)]], 1⟩ : HMap Nat Nat) 1
    (by decide) (by decide)

end SaltMap

namespace SaltMap

/-- C5 counterexample: running Scenario B concretely (capacity 10, keys
"0".."9" as byte strings, the byte-pair hash as the pluggable hashing
capability) the pre-check state of every one of the 10 inserts fails the
resize trigger — no resize ever occurs — while `len = 10` and
`get("5") = 5` do hold.  This refutes the claim's "at least one resize must
have occurred": `with_capacity(10)` allocates `⌊10 / 0.7⌋ = 14` slots, so 10
entries never exceed the threshold at any pre-insert check. -/
theorem c5_counterexample :
    ((List.range 10).all fun i =>
      (foldInsert (naiveHash none) (withCapacity (List Nat) Nat 10)
          (scenarioPairs.take i)).any fun mi => !shouldResize mi) = true ∧
    ((foldInsert (naiveHash none) (withCapacity (List Nat) Nat 10)
        scenarioPairs).any fun mf =>
      decide (mf.load = 10) &&
        decide (get (naiveHash none) mf (digitKey 5) = some (some 5))) = true := by
  decide

/-- C5 amended: for a table constructed with capacity 10 (so 14 slots) and
any hashing capability, inserting keys "0".."9" with values 0..9 gives
`len = 10` and `get("5") = 5`, and **no** resize occurs during the
sequence: each of the 10 inserts starts from a state failing the resize
trigger. -/
theorem c5_scenario_b (hashF : List Nat → Nat) :
    ∃ m1, foldInsert hashF (withCapacity (List Nat) Nat 10) scenarioPairs =
        some m1 ∧
      m1.load = 10 ∧
      get hashF m1 (digitKey 5) = some (some 5) ∧
      m1.backing.length = 14 ∧
      ∀ i, i < 10 → ∃ mi,
        foldInsert hashF (withCapacity (List Nat) Nat 10)
            (scenarioPairs.take i) = some mi ∧
          shouldResize mi = false := by
  have hlen0 : (withCapacity (List Nat) Nat 10).backing.length = 14 := by decide
  have hcap0 : 1 ≤ (withCapacity (List Nat) Nat 10).backing.length := by decide
  have hload0 : (withCapacity (List Nat) Nat 10).load = 0 := rfl
  have hnd : (chainKeys scenarioPairs).Nodup := by decide
  have hsl : scenarioPairs.length = 10 := by decide
  have hbound : ∀ j, j < scenarioPairs.length →
      10 * ((withCapacity (List Nat) Nat 10).load + j) ≤
        7 * (withCapacity (List Nat) Nat 10).backing.length := by
    intro j hj
    rw [hload0, hlen0]
    rw [hsl] at hj
    omega
  rcases foldInsert_fresh hashF scenarioPairs (withCapacity (List Nat) Nat 10)
    (inv_withCapacity hashF 10) hcap0 hnd
    (fun p _ => lookupModel_withCapacity hashF 10 p.1) hbound with
    ⟨m1, hrun, _, hlen1, hload1, hmodel1⟩
  have hcap1 : 1 ≤ m1.backing.length := by rw [hlen1]; exact hcap0
  refine ⟨m1, hrun, ?_, ?_, by rw [hlen1, hlen0], ?_⟩
  · rw [hload1, hload0, hsl]
  · rw [get_spec hashF m1 (digitKey 5) hcap1, hmodel1 (digitKey 5)]
    have : chainFind scenarioPairs (digitKey 5) = some 5 := by decide
    rw [this]
  · intro i hi
    have hbi : ∀ j, j < (scenarioPairs.take i).length →
        10 * ((withCapacity (List Nat) Nat 10).load + j) ≤
          7 * (withCapacity (List Nat) Nat 10).backing.length := by
      intro j hj
      rw [hload0, hlen0]
      have hle : (scenarioPairs.take i).length ≤ 10 := by
        rw [List.length_take, hsl]
        omega
      omega
    rcases foldInsert_fresh hashF (scenarioPairs.take i)
      (withCapacity (List Nat) Nat 10) (inv_withCapacity hashF 10) hcap0
      (chainKeys_take_nodup scenarioPairs i hnd)
      (fun p _ => lookupModel_withCapacity hashF 10 p.1) hbi with
      ⟨mi, hruni, _, hleni, hloadi, _⟩
    refine ⟨mi, hruni, ?_⟩
    have hli : mi.load ≤ 9 := by
      rw [hloadi, hload0, List.length_take, hsl]
      omega
    have hci : mi.backing.length = 14 := by rw [hleni, hlen0]
    unfold shouldResize
    rw [hci]
    simp only [gt_iff_lt, decide_eq_false_iff_not, not_lt]
    omega

/-- C6: `with_capacity(n)` (and `with_capacity_and_hasher(n, h)`, which
builds the identical state) allocates `⌊n / 0.7⌋ = 10 * n / 7` slots, has
load 0, and absorbs up to `n` insertions of distinct keys with no resize
being triggered: every insert in the sequence starts from a state failing
the resize trigger, and the capacity never changes. -/
theorem c6_with_capacity_absorbs {K V : Type} [DecidableEq K] (hashF : K → Nat)
    (n : Nat) (hn : 1 ≤ n) :
    (withCapacity K V n).backing.length = 10 * n / 7 ∧
    withCapacityAndHasher K V n = withCapacity K V n ∧
    (withCapacity K V n).load = 0 ∧
    ∀ l : List (K × V), (chainKeys l).Nodup → l.length ≤ n →
      ∃ m1, foldInsert hashF (withCapacity K V n) l = some m1 ∧
        m1.backing.length = (withCapacity K V n).backing.length ∧
        m1.load = l.length ∧
        ∀ i, i < l.length → ∃ mi,
          foldInsert hashF (withCapacity K V n) (l.take i) = some mi ∧
          shouldResize mi = false := by
  have hcap0 : 1 ≤ (withCapacity K V n).backing.length := withCapacity_pos n hn
  have hlen0 : (withCapacity K V n).backing.length = 10 * n / 7 :=
    withCapacity_length n
  have hload0 : (withCapacity K V n).load = 0 := rfl
  refine ⟨hlen0, rfl, rfl, ?_⟩
  intro l hnd hln
  have hbound : ∀ j, j < l.length →
      10 * ((withCapacity K V n).load + j) ≤
        7 * (withCapacity K V n).backing.length := by
    intro j hj
    rw [hload0, hlen0]
    omega
  rcases foldInsert_fresh hashF l (withCapacity K V n) (inv_withCapacity hashF n)
    hcap0 hnd (fun p _ => lookupModel_withCapacity hashF n p.1) hbound with
    ⟨m1, hrun, _, hlen1, hload1, _⟩
  refine ⟨m1, hrun, hlen1, by rw [hload1, hload0]; omega, ?_⟩
  intro i hi
  have hbi : ∀ j, j < (l.take i).length →
      10 * ((withCapacity K V n).load + j) ≤
        7 * (withCapacity K V n).backing.length := by
    intro j hj
    rw [hload0, hlen0]
    have : (l.take i).length ≤ l.length := by
      rw [List.length_take]
      omega
    omega
  rcases foldInsert_fresh hashF (l.take i) (withCapacity K V n)
    (inv_withCapacity hashF n) hcap0 (chainKeys_take_nodup l i hnd)
    (fun p _ => lookupModel_withCapacity hashF n p.1) hbi with
    ⟨mi, hruni, _, hleni, hloadi, _⟩
  refine ⟨mi, hruni, ?_⟩
  unfold shouldResize
  rw [hloadi, hload0, hleni, hlen0]
  simp only [gt_iff_lt, decide_eq_false_iff_not, not_lt]
  have : (l.take i).length ≤ i := by
    rw [List.length_take]
    omega
  omega

theorem c6_witness :
    (withCapacity Nat Nat 2).backing.length = 10 * 2 / 7 ∧
    withCapacityAndHasher Nat Nat 2 = withCapacity Nat Nat 2 ∧
    (withCapacity Nat Nat 2).load = 0 ∧
    ∀ l : List (Nat × Nat), (chainKeys l).Nodup → l.length ≤ 2 →
      ∃ m1, foldInsert (fun n : Nat => n) (withCapacity Nat Nat 2) l = some m1 ∧
        m1.backing.length = (withCapacity Nat Nat 2).backing.length ∧
        m1.load = l.length ∧
        ∀ i, i < l.length → ∃ mi,
          foldInsert (fun n : Nat => n) (withCapacity Nat Nat 2) (l.take i) =
            some mi ∧ shouldResize mi = false :=
  c6_with_capacity_absorbs (fun n : Nat => n) 2 (by decide)

/-- C7 counterexample: on the zero-slot table built by `with_capacity(0)`
(`⌊0 / 0.7⌋ = 0` slots), `insert` does not return: `get_index` computes
`hash % 0`, which panics in Rust (modelled by `none`).  The same happens for
`get`, `get_mut`, `remove` and `remove_entry`, refuting "every public
operation is total ... (including with_capacity(0))". -/
theorem c7_counterexample :
    insert (fun n : Nat => n) (withCapacity Nat Nat 0) 0 0 = none := rfl

/-- C7 amended: every key-indexed public operation returns normally on every
well-formed table with at least one slot — which covers every table built
with requested capacity ≥ 1 and everything reachable from it — with lookups
and removals signalling absence through the inner `Option`, never by
failing.  (`len`, `capacity`, `is_empty`, `clear` and `hasher` are plain
total functions of the state and cannot fail on any table, zero-slot ones
included.) -/
theorem c7_total_on_positive_capacity {K V : Type} [DecidableEq K]
    (hashF : K → Nat) (m : HMap K V) (k : K) (v : V)
    (hinv : Inv hashF m) (hcap : 1 ≤ m.backing.length) :
    (insert hashF m k v).isSome = true ∧
    (get hashF m k).isSome = true ∧
    (getMut hashF m k).isSome = true ∧
    (removeEntry hashF m k).isSome = true ∧
    (remove hashF m k).isSome = true := by
  have hrem : (removeEntry hashF m k).isSome = true := by
    rcases hlk : lookupModel hashF m k with _ | v0
    · rw [(removeEntry_spec hashF m k hinv hcap).1 hlk]
      rfl
    · rcases (removeEntry_spec hashF m k hinv hcap).2 v0 hlk with ⟨m1, h1, _⟩
      rw [h1]
      rfl
  refine ⟨?_, ?_, ?_, hrem, ?_⟩
  · rcases insert_spec hashF m k v hinv hcap with ⟨m1, heq, _⟩
    rw [heq]
    rfl
  · rw [get_spec hashF m k hcap]
    rfl
  · rw [getMut_spec hashF m k hcap]
    rfl
  · show ((removeEntry hashF m k).map
      (fun r => r.map (fun e => (e.1.2, e.2)))).isSome = true
    rcases hre : removeEntry hashF m k with _ | r
    · rw [hre] at hrem
      simp at hrem
    · rfl

theorem c7_witness :
    (insert (fun n : Nat => n) (withCapacity Nat Nat 1) 0 0).isSome = true ∧
    (get (fun n : Nat => n) (withCapacity Nat Nat 1) 0).isSome = true ∧
    (getMut (fun n : Nat => n) (withCapacity Nat Nat 1) 0).isSome = true ∧
    (removeEntry (fun n : Nat => n) (withCapacity Nat Nat 1) 0).isSome = true ∧
    (remove (fun n : Nat => n) (withCapacity Nat Nat 1) 0).isSome = true :=
  c7_total_on_positive_capacity (fun n : Nat => n) (withCapacity Nat Nat 1) 0 0
    (inv_withCapacity _ 1) (by decide)

/-- C8: on every reachable table, (i) whenever `insert`'s threshold check
fires, `resize` runs to completion — `isSome` of the modelled `resize` says
precisely that no reinserting `insert` inside it sees the threshold fire
again (the marker for the nested re-entry is `none`); (ii) one `insert`
call at most doubles the capacity, i.e. performs at most one resize; and
(iii) a completed `remove_entry` never changes the capacity.  `get` and
`get_mut` return no table state at all in the embedding, so they can
trigger nothing. -/
theorem c8_resize_discipline {K V : Type} [DecidableEq K] (hashF : K → Nat)
    (m : HMap K V) (h : Reachable hashF m) :
    (shouldResize m = true → (resize hashF m).isSome = true) ∧
    (∀ k v r m1, insert hashF m k v = some (r, m1) →
      m1.backing.length = m.backing.length ∨
      m1.backing.length = m.backing.length * 2) ∧
    (∀ k e m1, removeEntry hashF m k = some (some (e, m1)) →
      m1.backing.length = m.backing.length) := by
  have hinv := reachable_inv hashF m h
  refine ⟨?_, ?_, ?_⟩
  · intro hsr
    have hcap : 1 ≤ m.backing.length := by
      by_contra hc
      have hc0 : m.backing.length = 0 := by omega
      have hb : m.backing = [] := List.length_eq_zero.1 hc0
      have hl0 : m.load = 0 := by
        have h1 := hinv.1
        rw [show allEntries m = [] from by rw [allEntries, hb]; rfl] at h1
        simpa using h1
      unfold shouldResize at hsr
      rw [hl0, hc0] at hsr
      simp at hsr
    rcases hinv with ⟨hload, hbuck, hbnd⟩
    rcases resize_spec hashF m hcap hload hbuck hbnd with ⟨m1, hr, _⟩
    rw [hr]
    rfl
  · intro k v r m1 heq
    by_cases hcap : 1 ≤ m.backing.length
    · rcases insert_spec hashF m k v hinv hcap with
        ⟨m2, heq2, _, _, _, _, _, hcapd⟩
      rw [heq2] at heq
      simp only [Option.some.injEq, Prod.mk.injEq] at heq
      rw [← heq.2]
      exact hcapd
    · rw [insert_none_of_cap0 hashF m k v (by omega)] at heq
      exact Option.noConfusion heq
  · intro k e m1 heq
    by_cases hcap : 1 ≤ m.backing.length
    · rcases hlk : lookupModel hashF m k with _ | v
      · rw [(removeEntry_spec hashF m k hinv hcap).1 hlk] at heq
        simp at heq
      · rcases (removeEntry_spec hashF m k hinv hcap).2 v hlk with
          ⟨m2, h2, _, hlen2, _⟩
        rw [h2] at heq
        simp only [Option.some.injEq, Prod.mk.injEq] at heq
        rw [heq.2] at hlen2
        exact hlen2
    · rw [removeEntry_none_of_cap0 hashF m k (by omega)] at heq
      exact Option.noConfusion heq

theorem c8_witness :
    ((shouldResize (withCapacity Nat Nat 10) = true →
      (resize (fun n : Nat => n) (withCapacity Nat Nat 10)).isSome = true) ∧
    (∀ k v r m1, insert (fun n : Nat => n) (withCapacity Nat Nat 10) k v =
        some (r, m1) →
      m1.backing.length = (withCapacity Nat Nat 10).backing.length ∨
      m1.backing.length = (withCapacity Nat Nat 10).backing.length * 2) ∧
    (∀ k e m1, removeEntry (fun n : Nat => n) (withCapacity Nat Nat 10) k =
        some (some (e, m1)) →
      m1.backing.length = (withCapacity Nat Nat 10).backing.length)) :=
  c8_resize_discipline (fun n : Nat => n) (withCapacity Nat Nat 10)
    (Reachable.withCapacity 10)

/-- C9: on every table state reachable through the public operations, the
recorded `load` equals the total number of entries summed over all chains of
the backing — in particular after every completed `insert` (with or without
resize), `remove`, `remove_entry` and `clear`. -/
theorem c9_load_counts_entries {K V : Type} [DecidableEq K] (hashF : K → Nat)
    (m : HMap K V) (h : Reachable hashF m) :
    m.load = (allEntries m).length :=
  (reachable_inv hashF m h).1

theorem c9_witness :
    (withCapacity Nat Nat 3).load = (allEntries (withCapacity Nat Nat 3)).length :=
  c9_load_counts_entries (fun n : Nat => n) (withCapacity Nat Nat 3)
    (Reachable.withCapacity 3)

/-- C10: the naive custom-hash variant's `with_capacity(n)` allocates
exactly `n` slots (no load-factor adjustment), unlike the generic variant's
`10 * n / 7`; consequently, as long as no insert has yet begun with
`10 * load > 7 * n` (hypothesis `10 * (j - 1) ≤ 7 * n`), inserting `j`
distinct keys leaves capacity `n` and load `j`, and the next insert
triggers the first resize exactly when `10 * j > 7 * n` — for capacity 10
that is `j = 8`, i.e. the insert of the ninth distinct key. -/
theorem c10_naive_no_adjustment (V : Type) (n : Nat) (hn : 1 ≤ n) :
    (naiveWithCapacity V n).backing.length = n ∧
    (withCapacity (List Nat) V n).backing.length = 10 * n / 7 ∧
    ∀ l : List (List Nat × V), (chainKeys l).Nodup →
      ∀ j, j ≤ l.length → 10 * (j - 1) ≤ 7 * n →
        ∃ mj, foldInsert (naiveHash none) (naiveWithCapacity V n) (l.take j) =
            some mj ∧
          mj.backing.length = n ∧ mj.load = j ∧
          shouldResize mj = decide (10 * j > 7 * n) := by
  have hlen : (naiveWithCapacity V n).backing.length = n :=
    List.length_replicate _ _
  refine ⟨hlen, withCapacity_length n, ?_⟩
  intro l hnd j hj hbudget
  have hinv0 : Inv (naiveHash none) (naiveWithCapacity V n) :=
    inv_replicate (naiveHash none) n
  have hcap0 : 1 ≤ (naiveWithCapacity V n).backing.length := by
    rw [hlen]
    omega
  have hload0 : (naiveWithCapacity V n).load = 0 := rfl
  have hbound : ∀ i, i < (l.take j).length →
      10 * ((naiveWithCapacity V n).load + i) ≤
        7 * (naiveWithCapacity V n).backing.length := by
    intro i hi
    rw [hload0, hlen]
    have : (l.take j).length ≤ j := by
      rw [List.length_take]
      omega
    omega
  rcases foldInsert_fresh (naiveHash none) (l.take j) (naiveWithCapacity V n)
    hinv0 hcap0 (chainKeys_take_nodup l j hnd)
    (fun p _ => lookupModel_replicate (naiveHash none) n 0 p.1) hbound with
    ⟨mj, hrun, _, hlenj, hloadj, _⟩
  have hloadj1 : mj.load = j := by
    rw [hloadj, hload0, List.length_take]
    omega
  refine ⟨mj, hrun, by rw [hlenj, hlen], hloadj1, ?_⟩
  unfold shouldResize
  rw [hloadj1, hlenj, hlen]

theorem c10_witness :
    ((naiveWithCapacity Nat 10).backing.length = 10 ∧
    (withCapacity (List Nat) Nat 10).backing.length = 10 * 10 / 7 ∧
    ∀ l : List (List Nat × Nat), (chainKeys l).Nodup →
      ∀ j, j ≤ l.length → 10 * (j - 1) ≤ 7 * 10 →
        ∃ mj, foldInsert (naiveHash none) (naiveWithCapacity Nat 10)
            (l.take j) = some mj ∧
          mj.backing.length = 10 ∧ mj.load = j ∧
          shouldResize mj = decide (10 * j > 7 * 10)) :=
  c10_naive_no_adjustment Nat 10 (by decide)

end SaltMap
